import Mathlib

/-!
Verification development for the `machines` task-orchestration library.

The Python sources are shallowly embedded: identifiers (`Index`/`Branch`)
become lists of string atoms, the target storage becomes an association
list keyed by the target signature `(index, name, branch)`, and the
`Task`/`Factory` machinery becomes pure state-passing functions.  Each
definition mirrors one Python function, with the source location noted in
its doc comment.
-/

/-- Atoms of an `Index` or `Branch` identifier (`machines/target.py`).
The Python classes store a tuple of validated strings in `self._values`. -/
abbrev Atom := String

/-- Python-style deduplication keeping the first occurrence, as performed by
`IdBase.__init__` when `allow_duplicate` is `False` (`target.py` lines 266-273):
`values = [value for value in values if not (value in valueset or valueset.add(value))]`. -/
def pyDedupAux [DecidableEq α] (seen : List α) : List α → List α
  | [] => []
  | v :: rest => if v ∈ seen then pyDedupAux seen rest else v :: pyDedupAux (v :: seen) rest

/-- Entry point of the first-occurrence deduplication (empty `valueset`). -/
def pyDedup [DecidableEq α] (l : List α) : List α := pyDedupAux [] l

/-- Python slice `a[:-n]` (used by `IdBase.crop`, `target.py` line 295).
For `n = 0` the slice `a[:-0]` is `a[:0] = []`; for `n ≥ 1` it keeps the
first `len(a) - n` elements. -/
def pySliceToNeg (a : List α) (n : Nat) : List α :=
  if n = 0 then [] else a.take (a.length - n)

/-- Model of `IdBase.crop` (`target.py` lines 290-295):
`if n > len(self): return None; return cls(self._values[:-n])`.
Re-validation by the constructor is the identity here: a slice of valid,
duplicate-free values is again valid and duplicate-free. -/
def IdBase.crop (a : List Atom) (n : Nat) : Option (List Atom) :=
  if n > a.length then none
  else some (pySliceToNeg a n)

/-- Model of `IdBase.__add__` for `Index` (`target.py` lines 338-341):
`cls(self._values + cls(other)._values)`; `Index.allow_duplicate = True`,
so the constructor keeps duplicates and concatenation is plain append. -/
def Index.add (a b : List Atom) : List Atom := a ++ b

/-- The list computed inside `Branch.__add__` (`target.py` lines 397-400):
`self._values + tuple(v for v in other if not v in self._values)`. -/
def unionKeep [DecidableEq α] (a b : List α) : List α :=
  a ++ b.filter (fun v => decide (v ∉ a))

/-- Model of `Branch.__add__` (`target.py` lines 397-400): the combined tuple
is passed back through the `Branch` constructor, which deduplicates
(`allow_duplicate = False`). -/
def Branch.add (a b : List Atom) : List Atom := pyDedup (unionKeep a b)

-- basic lemmas about the deduplication and union helpers

lemma pyDedupAux_of_nodup [DecidableEq α] (seen : List α) (l : List α)
    (hdis : ∀ x ∈ l, x ∉ seen) (hnd : l.Nodup) : pyDedupAux seen l = l := by
  induction l generalizing seen with
  | nil => rfl
  | cons v rest ih =>
    have hv : v ∉ seen := hdis v (List.mem_cons_self _ _)
    rw [pyDedupAux, if_neg hv]
    congr 1
    refine ih (v :: seen) ?_ (List.Nodup.of_cons hnd)
    intro x hx
    rcases List.nodup_cons.mp hnd with ⟨hvr, _⟩
    intro hmem
    rcases List.mem_cons.mp hmem with h | h
    · exact hvr (h ▸ hx)
    · exact hdis x (List.mem_cons_of_mem _ hx) h

lemma pyDedup_of_nodup [DecidableEq α] (l : List α) (hnd : l.Nodup) :
    pyDedup l = l :=
  pyDedupAux_of_nodup [] l (fun _ _ h => (List.not_mem_nil _ h)) hnd

lemma mem_unionKeep [DecidableEq α] (a b : List α) (x : α) :
    x ∈ unionKeep a b ↔ x ∈ a ∨ x ∈ b := by
  simp only [unionKeep, List.mem_append, List.mem_filter, decide_eq_true_eq]
  constructor
  · rintro (h | ⟨h, _⟩)
    · exact Or.inl h
    · exact Or.inr h
  · rintro (h | h)
    · exact Or.inl h
    · by_cases hxa : x ∈ a
      · exact Or.inl hxa
      · exact Or.inr ⟨h, hxa⟩

lemma nodup_unionKeep [DecidableEq α] (a b : List α)
    (ha : a.Nodup) (hb : b.Nodup) : (unionKeep a b).Nodup := by
  refine List.Nodup.append ha (hb.filter _) ?_
  intro x hxa hxb
  rcases List.mem_filter.mp hxb with ⟨_, hdec⟩
  exact (decide_eq_true_eq.mp hdec) hxa

lemma unionKeep_nil_right [DecidableEq α] (a : List α) : unionKeep a [] = a := by
  simp [unionKeep]

lemma unionKeep_nil_left [DecidableEq α] (a : List α) : unionKeep [] a = a := by
  simp [unionKeep]

lemma unionKeep_self [DecidableEq α] (a : List α) : unionKeep a a = a := by
  have h : a.filter (fun v => decide (v ∉ a)) = [] := by
    apply List.filter_eq_nil_iff.mpr
    intro x hx
    simp [hx]
  simp [unionKeep, h]

lemma unionKeep_assoc [DecidableEq α] (a b c : List α) :
    unionKeep (unionKeep a b) c = unionKeep a (unionKeep b c) := by
  simp only [unionKeep, List.filter_append, List.append_assoc, List.filter_filter]
  congr 1
  congr 1
  apply List.filter_congr
  intro x _
  by_cases hxa : x ∈ a <;> by_cases hxb : x ∈ b <;>
    simp [List.mem_append, List.mem_filter, hxa, hxb]

-- C7

/-- Counterexample to claim C7 as stated: `crop 0` on a one-atom identifier
returns the empty identifier even though `0 ≠ len`, because the Python slice
`values[:-0]` is `values[:0] = []`. -/
theorem crop_zero_cex :
    IdBase.crop [("a" : Atom)] 0 = some [] ∧ (0 : Nat) ≠ [("a" : Atom)].length := by
  constructor
  · rfl
  · decide

/-- Claim C7 (amended to `n ≥ 1`): for every identifier value `a` and every
`n ≥ 1`, `crop n` drops the last `n` atoms (returning the first `len - n`),
returns `None` exactly when `n > len`, and returns the empty identifier
exactly when `n = len`. -/
theorem crop_spec (a : List Atom) (n : Nat) (h1 : 1 ≤ n) :
    (IdBase.crop a n = none ↔ a.length < n) ∧
    (n ≤ a.length → IdBase.crop a n = some (a.take (a.length - n))) ∧
    (IdBase.crop a n = some [] ↔ n = a.length) := by
  have hn0 : n ≠ 0 := Nat.one_le_iff_ne_zero.mp h1
  refine ⟨?_, ?_, ?_⟩
  · constructor
    · intro h
      by_contra hlt
      rw [IdBase.crop, if_neg (by omega)] at h
      exact Option.noConfusion h
    · intro h
      rw [IdBase.crop, if_pos (by omega)]
  · intro hle
    rw [IdBase.crop, if_neg (by omega), pySliceToNeg, if_neg hn0]
  · constructor
    · intro h
      by_cases hgt : n > a.length
      · rw [IdBase.crop, if_pos hgt] at h
        exact Option.noConfusion h
      · rw [IdBase.crop, if_neg hgt, pySliceToNeg, if_neg hn0] at h
        have htake := Option.some.inj h
        have hlt := congrArg List.length htake
        rw [List.length_take] at hlt
        simp only [List.length_nil] at hlt
        omega
    · intro h
      rw [IdBase.crop, if_neg (by omega), pySliceToNeg, if_neg hn0]
      congr 1
      rw [h]
      simp

/-- Witness for `crop_spec` at `a = ["a", "b"]`, `n = 1`. -/
theorem crop_spec_witness :
    (IdBase.crop [("a" : Atom), "b"] 1 = none ↔ [("a" : Atom), "b"].length < 1) ∧
    (1 ≤ [("a" : Atom), "b"].length →
      IdBase.crop [("a" : Atom), "b"] 1 =
        some ([("a" : Atom), "b"].take ([("a" : Atom), "b"].length - 1))) ∧
    (IdBase.crop [("a" : Atom), "b"] 1 = some [] ↔ 1 = [("a" : Atom), "b"].length) :=
  crop_spec [("a" : Atom), "b"] 1 (by decide)

-- C8

/-- Claim C8: identifier concatenation laws.  `Index` concatenation (plain
append, duplicates allowed) has the empty identifier as a two-sided unit and
is associative for all values; `Branch` concatenation (order-preserving,
duplicates from the right operand dropped, result re-deduplicated by the
constructor) satisfies the same laws on duplicate-free values — the invariant
the `Branch` constructor maintains — and is idempotent: `a + a = a`. -/
theorem id_concat_laws (i : List Atom) (a b c : List Atom)
    (ha : a.Nodup) (hb : b.Nodup) (hc : c.Nodup) :
    (Index.add i [] = i ∧ Index.add [] i = i) ∧
    (∀ x y z : List Atom, Index.add (Index.add x y) z = Index.add x (Index.add y z)) ∧
    (Branch.add a [] = a ∧ Branch.add [] a = a ∧ Branch.add a a = a) ∧
    Branch.add (Branch.add a b) c = Branch.add a (Branch.add b c) := by
  refine ⟨⟨by simp [Index.add], by simp [Index.add]⟩,
    fun x y z => by simp [Index.add, List.append_assoc], ⟨?_, ?_, ?_⟩, ?_⟩
  · rw [Branch.add, unionKeep_nil_right, pyDedup_of_nodup a ha]
  · rw [Branch.add, unionKeep_nil_left, pyDedup_of_nodup a ha]
  · rw [Branch.add, unionKeep_self, pyDedup_of_nodup a ha]
  · have hab : (unionKeep a b).Nodup := nodup_unionKeep a b ha hb
    have hbc : (unionKeep b c).Nodup := nodup_unionKeep b c hb hc
    have e1 : Branch.add a b = unionKeep a b := by
      rw [Branch.add, pyDedup_of_nodup _ hab]
    have e2 : Branch.add b c = unionKeep b c := by
      rw [Branch.add, pyDedup_of_nodup _ hbc]
    show pyDedup (unionKeep (Branch.add a b) c) = pyDedup (unionKeep a (Branch.add b c))
    rw [e1, e2, unionKeep_assoc]

/-- Witness for `id_concat_laws` at concrete duplicate-free branches. -/
theorem id_concat_laws_witness :
    (Index.add [("i" : Atom)] [] = [("i" : Atom)] ∧
      Index.add [] [("i" : Atom)] = [("i" : Atom)]) ∧
    (∀ x y z : List Atom, Index.add (Index.add x y) z = Index.add x (Index.add y z)) ∧
    (Branch.add [("p" : Atom)] [] = [("p" : Atom)] ∧
      Branch.add [] [("p" : Atom)] = [("p" : Atom)] ∧
      Branch.add [("p" : Atom)] [("p" : Atom)] = [("p" : Atom)]) ∧
    Branch.add (Branch.add [("p" : Atom)] [("q" : Atom)]) [("r" : Atom)] =
      Branch.add [("p" : Atom)] (Branch.add [("q" : Atom)] [("r" : Atom)]) :=
  id_concat_laws [("i" : Atom)] [("p" : Atom)] [("q" : Atom)] [("r" : Atom)]
    (by decide) (by decide) (by decide)

-- storage model (`machines/storages.py`)

/-- Target signature `(index, name, branch)` — the identity of a `Target`
used by `__eq__`/`__hash__` (`target.py` lines 77-80, 185-198), hence the
key of the storage dictionary. -/
structure Sig where
  index : List Atom
  name : String
  branch : List Atom
deriving DecidableEq

/-- The storage back-end dictionary (`self.memory`): a key-value mapping
from target signatures to stored data, modelled as an association list
with unique keys. -/
abbrev Memory (α : Type) := List (Sig × α)

/-- Dictionary lookup `memory[target]` as an `Option`. -/
def memGet : Memory α → Sig → Option α
  | [], _ => none
  | p :: rest, k => if p.1 = k then some p.2 else memGet rest k

/-- Dictionary membership `target in memory`. -/
def memContains (m : Memory α) (k : Sig) : Bool := (memGet m k).isSome

/-- Dictionary assignment `memory[target] = data` (replaces an existing
binding, appends a fresh one otherwise). -/
def memSet (m : Memory α) (k : Sig) (v : α) : Memory α :=
  if memContains m k then m.map (fun p => if p.1 == k then (k, v) else p)
  else m ++ [(k, v)]

/-- Dictionary deletion `del memory[target]`. -/
def memDel (m : Memory α) (k : Sig) : Memory α :=
  m.filter (fun p => !(p.1 == k))

/-- Task status enum (`machines/common.py` lines 8-17). -/
inductive Status
  | ERROR | REJECTED | RUNNING | PENDING | SUCCESS | SKIPPED | NEW
deriving DecidableEq

/-- Errors raised by storage operations (`machines/common.py`):
`TargetIsLocked`, `TargetAlreadyExists`, `TargetDoesNotExist`, plus the
`ValueError` raised by `write` on an unknown mode string. -/
inductive StorageErr
  | targetIsLocked | targetAlreadyExists | targetDoesNotExist | valueError
deriving DecidableEq

/-- Model of `TargetStorage` (`storages.py` lines 27-76): the dictionary,
the list of locked target names (`target_lock`), the `temporary` flag and
the per-name comparators.  Callbacks other than `on_test` are not observed
by the claims; the `on_test` argument is reported in `WriteResult`. -/
structure TargetStorage (α : Type) where
  memory : Memory α
  target_lock : List String
  temporary : Bool
  comparators : String → Option (α → α → Bool)

/-- Model of `TargetStorage._compare` (`storages.py` lines 231-239): load
the previous value and apply the per-name comparator, defaulting to `==`.
It is only ever invoked when the target exists (otherwise `read` would
raise), so the `none` branch is unreachable. -/
def TargetStorage.compareData [BEq α] (s : TargetStorage α) (t : Sig) (data : α) : Bool :=
  match memGet s.memory t with
  | some previous =>
    match s.comparators t.name with
    | some comparator => comparator previous data
    | none => previous == data
  | none => false

/-- Observable outcome of a successful `write`: the new storage, the
`is_same` argument passed to the `on_test` callback if it fired, and
whether the memory assignment (and hence `on_write`) happened. -/
structure WriteResult (α : Type) where
  storage : TargetStorage α
  on_test : Option Bool
  wrote : Bool

/-- Model of `TargetStorage.write` (`storages.py` lines 132-174).  The mode
checks (`TargetIsLocked`, test/upgrade comparison, `TargetAlreadyExists`,
`ValueError`) all sit inside the `if target in self.memory:` branch; an
absent target falls straight through to `self.memory[target] = data`. -/
def TargetStorage.write [BEq α] (s : TargetStorage α) (t : Sig) (data : α)
    (mode : Option String) : Except StorageErr (WriteResult α) :=
  if memContains s.memory t then
    if t.name ∈ s.target_lock then
      .error .targetIsLocked
    else if mode = some "test" ∨ mode = some "upgrade" then
      let is_same := s.compareData t data
      if is_same ∨ mode = some "test" then
        .ok ⟨s, some is_same, false⟩
      else
        .ok ⟨{ s with memory := memSet s.memory t data }, some is_same, true⟩
    else if mode = some "overwrite" then
      .ok ⟨{ s with memory := memSet s.memory t data }, none, true⟩
    else if mode = none ∨ mode = some "readonly" then
      .error .targetAlreadyExists
    else
      .error .valueError
  else
    .ok ⟨{ s with memory := memSet s.memory t data }, none, true⟩

/-- Model of `TargetStorage.remove` (`storages.py` lines 204-220): the
lock check comes first (outside any existence test), then `del` raises
`TargetDoesNotExist` via `KeyError` for an absent target. -/
def TargetStorage.remove (s : TargetStorage α) (t : Sig) :
    Except StorageErr (TargetStorage α) :=
  if t.name ∈ s.target_lock then .error .targetIsLocked
  else if memContains s.memory t then .ok { s with memory := memDel s.memory t }
  else .error .targetDoesNotExist

-- C2

/-- The empty storage over `Nat` data used by concrete counterexamples. -/
def emptyNatStorage : TargetStorage Nat :=
  ⟨[], [], false, fun _ => none⟩

/-- Signature of the target `Target("a")` used by concrete counterexamples. -/
def sigA : Sig := ⟨[], "a", []⟩

/-- Counterexample to claim C2 as stated: writing with `mode="test"` to a
target that does not exist yet does mutate the storage — the existence
branch is skipped entirely and the value is persisted (and `on_test` never
fires). -/
theorem write_test_mode_cex :
    TargetStorage.write emptyNatStorage sigA 5 (some "test") =
      .ok ⟨⟨[(sigA, 5)], [], false, fun _ => none⟩, none, true⟩ ∧
    memContains emptyNatStorage.memory sigA = false := by
  constructor
  · rfl
  · rfl

/-- Claim C2 (amended): for a target that already exists and is not locked,
`write` with `mode="test"` returns the storage unchanged, performs no memory
assignment, and fires `on_test` with the comparison result; for a target
that does not exist, the value is written as by a plain write. -/
theorem write_test_mode_spec [BEq α] (s : TargetStorage α) (t : Sig) (data : α) :
    (memContains s.memory t = true → t.name ∉ s.target_lock →
      TargetStorage.write s t data (some "test") =
        .ok ⟨s, some (s.compareData t data), false⟩) ∧
    (memContains s.memory t = false →
      TargetStorage.write s t data (some "test") =
        .ok ⟨{ s with memory := memSet s.memory t data }, none, true⟩) := by
  constructor
  · intro hex hlock
    rw [TargetStorage.write, if_pos hex, if_neg hlock,
      if_pos (Or.inl rfl)]
    by_cases hs : s.compareData t data
    · rw [if_pos (Or.inl hs)]
    · rw [if_pos (Or.inr rfl)]
  · intro hex
    rw [TargetStorage.write, if_neg (by simp [hex])]

/-- Witness for `write_test_mode_spec`: a concrete existing, unlocked target. -/
theorem write_test_mode_spec_witness :
    TargetStorage.write (⟨[(sigA, 5)], [], false, fun _ => none⟩ : TargetStorage Nat)
        sigA 7 (some "test") =
      .ok ⟨⟨[(sigA, 5)], [], false, fun _ => none⟩,
        some ((⟨[(sigA, 5)], [], false, fun _ => none⟩ : TargetStorage Nat).compareData sigA 7),
        false⟩ :=
  (write_test_mode_spec ⟨[(sigA, 5)], [], false, fun _ => none⟩ sigA 7).1
    (by rfl) (by simp)

-- C3

/-- A storage whose lock list contains the name "a" but which holds no data,
used to refute claim C3. -/
def lockedEmptyStorage : TargetStorage Nat :=
  ⟨[], ["a"], false, fun _ => none⟩

/-- Counterexample to claim C3 as stated: writing to a target whose name is
locked succeeds (and mutates the storage) when no value for the target is
persisted — the `TargetIsLocked` check only runs for existing targets.
The repository's own test suite relies on this
(`test/test_storages.py::test_storage_lock` first writes to the locked
name "A" with no mode and expects no exception). -/
theorem write_locked_cex :
    TargetStorage.write lockedEmptyStorage sigA 5 none =
      .ok ⟨⟨[(sigA, 5)], ["a"], false, fun _ => none⟩, none, true⟩ ∧
    sigA.name ∈ lockedEmptyStorage.target_lock := by
  constructor
  · rfl
  · decide

/-- Claim C3 (amended): for a target that currently exists and whose name is
in the lock list, `write` raises `TargetIsLocked` for every mode, and the
storage is unchanged (the model returns no storage on error; the Python
method raises before any mutation). -/
theorem write_locked_spec [BEq α] (s : TargetStorage α) (t : Sig) (data : α)
    (mode : Option String) (hex : memContains s.memory t = true)
    (hlock : t.name ∈ s.target_lock) :
    TargetStorage.write s t data mode = .error .targetIsLocked := by
  rw [TargetStorage.write, if_pos hex, if_pos hlock]

/-- Witness for `write_locked_spec`: a locked name with a persisted value. -/
theorem write_locked_spec_witness :
    TargetStorage.write (⟨[(sigA, 5)], ["a"], false, fun _ => none⟩ : TargetStorage Nat)
        sigA 7 (some "overwrite") = .error .targetIsLocked :=
  write_locked_spec ⟨[(sigA, 5)], ["a"], false, fun _ => none⟩ sigA 7
    (some "overwrite") (by rfl) (by decide)

-- C10

/-- Claim C10: in `remove`, the lock check precedes the existence check —
a locked name raises `TargetIsLocked` even when nothing is persisted for
the target, and `TargetDoesNotExist` is only raised for absent targets with
unlocked names.  Both failures return no storage: the Python method raises
before touching `self.memory`. -/
theorem remove_lock_first_spec (s : TargetStorage α) (t : Sig) :
    (t.name ∈ s.target_lock → TargetStorage.remove s t = .error .targetIsLocked) ∧
    (t.name ∉ s.target_lock → memContains s.memory t = false →
      TargetStorage.remove s t = .error .targetDoesNotExist) := by
  constructor
  · intro hlock
    rw [TargetStorage.remove, if_pos hlock]
  · intro hlock hex
    rw [TargetStorage.remove, if_neg hlock, if_neg (by simp [hex])]

/-- Witness for `remove_lock_first_spec`: removing an absent, locked target
raises `TargetIsLocked`, not `TargetDoesNotExist`. -/
theorem remove_lock_first_witness :
    TargetStorage.remove lockedEmptyStorage sigA = .error .targetIsLocked :=
  (remove_lock_first_spec lockedEmptyStorage sigA).1 (by decide)

-- cleanup (`storages.py` lines 241-291)

/-- Python `task.status in (Status.ERROR, Status.REJECTED, Status.SUCCESS,
Status.SKIPPED)` — the filter applied to the summary (`storages.py` 251-256). -/
def finishedStatus (st : Status) : Bool :=
  decide (st = .ERROR ∨ st = .REJECTED ∨ st = .SUCCESS ∨ st = .SKIPPED)

/-- A finalised task as seen by `cleanup`: its status, aggregate flag and
input targets.  For an aggregating task `task.inputs` is a list of target
lists; for a plain task it is a flat list of targets, represented here as
singleton lists so that both Python branches (`storages.py` 261-274) compute
the same thing: the set of the task's input targets, flattened. -/
structure FinishedTask where
  status : Status
  aggregate : Bool
  inputs : List (List Sig)

/-- The set of a task's input targets stored in this storage
(`if self.exists(target)`, `storages.py` 262-274). -/
def taskStoredInputs (s : TargetStorage α) (task : FinishedTask) : List Sig :=
  task.inputs.flatten.filter (fun t => memContains s.memory t)

/-- The `all_targets` set of `cleanup` (`storages.py` 257-279): the stored
input targets of every finished task in the summary. -/
def cleanupAllTargets (s : TargetStorage α) (summary : List FinishedTask) : List Sig :=
  pyDedup (((summary.filter (fun task => finishedStatus task.status)).map
    (fun task => taskStoredInputs s task)).flatten)

/-- The `keep_targets` set of `cleanup` (`storages.py` 280-282): the stored
input targets of every ERROR task in the summary. -/
def cleanupKeepTargets (s : TargetStorage α) (summary : List FinishedTask) : List Sig :=
  pyDedup ((((summary.filter (fun task => finishedStatus task.status)).filter
    (fun task => decide (task.status = .ERROR))).map
    (fun task => taskStoredInputs s task)).flatten)

/-- The `remove_targets = all_targets - keep_targets` difference
(`storages.py` line 285). -/
def cleanupRemoveTargets (s : TargetStorage α) (summary : List FinishedTask) : List Sig :=
  (cleanupAllTargets s summary).filter
    (fun t => decide (t ∉ cleanupKeepTargets s summary))

/-- Model of `TargetStorage.cleanup` (`storages.py` lines 241-291).
Python accumulates `all_targets` and `keep_targets` as sets; here they are
deduplicated lists.  The final loop calls `self.remove(target)` for each
target of `all_targets - keep_targets`, which can raise `TargetIsLocked`
for a locked name; the iteration order of a Python set is unspecified, but
the outcome (including whether an exception occurs) is order-independent
because the targets are distinct and locks do not depend on memory. -/
def TargetStorage.cleanup (s : TargetStorage α) (summary : List FinishedTask) :
    Except StorageErr (TargetStorage α) :=
  if s.temporary = false then .ok s
  else
    (cleanupRemoveTargets s summary).foldlM
      (fun acc t => TargetStorage.remove acc t) s

/-- Predicate used to state C6: the target is an input of some finalised
task in the summary. -/
def isFinishedInput (summary : List FinishedTask) (t : Sig) : Bool :=
  summary.any (fun task => finishedStatus task.status && decide (t ∈ task.inputs.flatten))

/-- Predicate used to state C6: the target is an input of some ERROR task
in the summary. -/
def isErrorInput (summary : List FinishedTask) (t : Sig) : Bool :=
  summary.any (fun task => decide (task.status = .ERROR) && decide (t ∈ task.inputs.flatten))

-- lemmas about deduplication membership and memory deletion

lemma mem_pyDedupAux [DecidableEq α] (seen l : List α) (x : α) :
    x ∈ pyDedupAux seen l ↔ x ∈ l ∧ x ∉ seen := by
  induction l generalizing seen with
  | nil => simp [pyDedupAux]
  | cons v rest ih =>
    have hsub : x = v → (x ∈ seen ↔ v ∈ seen) := fun h => by rw [h]
    by_cases hv : v ∈ seen
    · rw [pyDedupAux, if_pos hv, ih]
      simp only [List.mem_cons]
      tauto
    · rw [pyDedupAux, if_neg hv]
      simp only [List.mem_cons, ih, List.mem_cons]
      tauto

lemma mem_pyDedup [DecidableEq α] (l : List α) (x : α) :
    x ∈ pyDedup l ↔ x ∈ l := by
  rw [pyDedup, mem_pyDedupAux]
  simp

lemma pyDedupAux_nodup [DecidableEq α] (seen l : List α) :
    (pyDedupAux seen l).Nodup := by
  induction l generalizing seen with
  | nil => exact List.nodup_nil
  | cons v rest ih =>
    rw [pyDedupAux]
    by_cases hv : v ∈ seen
    · rw [if_pos hv]
      exact ih seen
    · rw [if_neg hv]
      refine List.nodup_cons.mpr ⟨?_, ih (v :: seen)⟩
      intro hmem
      exact ((mem_pyDedupAux _ _ _).mp hmem).2 (List.mem_cons_self _ _)

lemma pyDedup_nodup [DecidableEq α] (l : List α) : (pyDedup l).Nodup :=
  pyDedupAux_nodup [] l

lemma memGet_memDel (m : Memory α) (t k : Sig) :
    memGet (memDel m t) k = if k = t then none else memGet m k := by
  induction m with
  | nil => by_cases hkt : k = t <;> simp [memDel, memGet, hkt]
  | cons p rest ih =>
    rw [memDel, List.filter_cons]
    by_cases hpt : p.1 = t
    · rw [if_neg (by simp [hpt])]
      rw [show List.filter (fun q => !(q.1 == t)) rest = memDel rest t from rfl, ih]
      by_cases hkt : k = t
      · rw [if_pos hkt, if_pos hkt]
      · rw [if_neg hkt, if_neg hkt, memGet,
          if_neg (fun h => hkt (by rw [← h, hpt]))]
    · rw [if_pos (by simp [hpt])]
      by_cases hpk : p.1 = k
      · have hkt : ¬ (k = t) := fun h => hpt (by rw [hpk, h])
        rw [if_neg hkt, memGet, memGet, if_pos hpk, if_pos hpk]
      · rw [memGet, if_neg hpk,
          show List.filter (fun q => !(q.1 == t)) rest = memDel rest t from rfl, ih]
        by_cases hkt : k = t
        · rw [if_pos hkt, if_pos hkt]
        · rw [if_neg hkt, if_neg hkt, memGet, if_neg hpk]

lemma memGet_removeAll (m : Memory α) (ts : List Sig) (k : Sig) :
    memGet (m.filter (fun p => decide (p.1 ∉ ts))) k =
      if k ∈ ts then none else memGet m k := by
  induction m with
  | nil => by_cases hk : k ∈ ts <;> simp [memGet, hk]
  | cons p rest ih =>
    rw [List.filter_cons]
    by_cases hin : p.1 ∈ ts
    · rw [if_neg (by simp [hin]), ih]
      by_cases hk : k ∈ ts
      · rw [if_pos hk, if_pos hk]
      · have hpk : ¬ (p.1 = k) := fun h => hk (h ▸ hin)
        rw [if_neg hk, if_neg hk, memGet, if_neg hpk]
    · rw [if_pos (by simp [hin])]
      by_cases hpk : p.1 = k
      · have hk : ¬ (k ∈ ts) := fun h => hin (hpk ▸ h)
        rw [if_neg hk, memGet, memGet, if_pos hpk, if_pos hpk]
      · rw [memGet, if_neg hpk, ih]
        by_cases hk : k ∈ ts
        · rw [if_pos hk, if_pos hk]
        · rw [if_neg hk, if_neg hk, memGet, if_neg hpk]

lemma foldlM_remove (ts : List Sig) (s : TargetStorage α)
    (hnd : ts.Nodup)
    (hlock : ∀ t ∈ ts, t.name ∉ s.target_lock)
    (hex : ∀ t ∈ ts, memContains s.memory t = true) :
    ts.foldlM (fun acc t => TargetStorage.remove acc t) s =
      .ok ⟨s.memory.filter (fun p => decide (p.1 ∉ ts)),
        s.target_lock, s.temporary, s.comparators⟩ := by
  induction ts generalizing s with
  | nil =>
    have hf : s.memory.filter (fun p => decide (p.1 ∉ ([] : List Sig))) = s.memory := by
      simp
    rw [hf]
    rfl
  | cons t ts ih =>
    have hrm : TargetStorage.remove s t =
        .ok ⟨memDel s.memory t, s.target_lock, s.temporary, s.comparators⟩ := by
      rw [TargetStorage.remove, if_neg (hlock t (List.mem_cons_self _ _)),
        if_pos (hex t (List.mem_cons_self _ _))]
    rw [List.foldlM_cons, hrm]
    show Except.bind _ _ = _
    rw [Except.bind]
    have hih := ih ⟨memDel s.memory t, s.target_lock, s.temporary, s.comparators⟩
      (List.Nodup.of_cons hnd)
      (fun u hu => hlock u (List.mem_cons_of_mem _ hu))
      (fun u hu => by
        have hut : ¬ (u = t) := by
          rcases List.nodup_cons.mp hnd with ⟨htt, _⟩
          intro h
          exact htt (h ▸ hu)
        have hc := hex u (List.mem_cons_of_mem _ hu)
        rw [memContains, memGet_memDel, if_neg hut]
        exact hc)
    rw [hih]
    congr 1
    congr 1
    rw [memDel, List.filter_filter]
    apply List.filter_congr
    intro p _
    by_cases h1 : p.1 = t <;> by_cases h2 : p.1 ∈ ts <;>
      simp [h1, h2, List.mem_cons]

lemma mem_cleanupAll (s : TargetStorage α) (summary : List FinishedTask) (t : Sig) :
    t ∈ cleanupAllTargets s summary ↔
      isFinishedInput summary t = true ∧ memContains s.memory t = true := by
  rw [cleanupAllTargets, mem_pyDedup, isFinishedInput, List.any_eq_true]
  constructor
  · intro h
    rcases List.mem_flatten.mp h with ⟨l, hl, hmem⟩
    rcases List.mem_map.mp hl with ⟨task, htask, rfl⟩
    rcases List.mem_filter.mp htask with ⟨hsum, hfin⟩
    rcases List.mem_filter.mp hmem with ⟨hflat, hcon⟩
    exact ⟨⟨task, hsum, by simp [hfin, hflat]⟩, hcon⟩
  · rintro ⟨⟨task, hsum, hb⟩, hcon⟩
    rw [Bool.and_eq_true, decide_eq_true_eq] at hb
    exact List.mem_flatten.mpr ⟨taskStoredInputs s task,
      List.mem_map.mpr ⟨task, List.mem_filter.mpr ⟨hsum, hb.1⟩, rfl⟩,
      List.mem_filter.mpr ⟨hb.2, hcon⟩⟩

lemma mem_cleanupKeep (s : TargetStorage α) (summary : List FinishedTask) (t : Sig) :
    t ∈ cleanupKeepTargets s summary ↔
      isErrorInput summary t = true ∧ memContains s.memory t = true := by
  rw [cleanupKeepTargets, mem_pyDedup, isErrorInput, List.any_eq_true]
  constructor
  · intro h
    rcases List.mem_flatten.mp h with ⟨l, hl, hmem⟩
    rcases List.mem_map.mp hl with ⟨task, htask, rfl⟩
    rcases List.mem_filter.mp htask with ⟨htask2, herr⟩
    rcases List.mem_filter.mp htask2 with ⟨hsum, _⟩
    rcases List.mem_filter.mp hmem with ⟨hflat, hcon⟩
    exact ⟨⟨task, hsum, by simp only [Bool.and_eq_true, decide_eq_true_eq] at herr ⊢
                           exact ⟨herr, hflat⟩⟩, hcon⟩
  · rintro ⟨⟨task, hsum, hb⟩, hcon⟩
    rw [Bool.and_eq_true, decide_eq_true_eq, decide_eq_true_eq] at hb
    have hfin : finishedStatus task.status = true := by
      rw [hb.1]
      decide
    exact List.mem_flatten.mpr ⟨taskStoredInputs s task,
      List.mem_map.mpr ⟨task, List.mem_filter.mpr
        ⟨List.mem_filter.mpr ⟨hsum, hfin⟩, by simp [hb.1]⟩, rfl⟩,
      List.mem_filter.mpr ⟨hb.2, hcon⟩⟩

lemma mem_cleanupRemove (s : TargetStorage α) (summary : List FinishedTask) (t : Sig) :
    t ∈ cleanupRemoveTargets s summary ↔
      memContains s.memory t = true ∧ isFinishedInput summary t = true ∧
        isErrorInput summary t = false := by
  rw [cleanupRemoveTargets]
  constructor
  · intro h
    rcases List.mem_filter.mp h with ⟨hall, hnk⟩
    rcases (mem_cleanupAll s summary t).mp hall with ⟨hfin, hcon⟩
    refine ⟨hcon, hfin, ?_⟩
    by_contra herr
    exact (decide_eq_true_eq.mp hnk)
      ((mem_cleanupKeep s summary t).mpr ⟨Bool.of_not_eq_false herr, hcon⟩)
  · rintro ⟨hcon, hfin, herr⟩
    refine List.mem_filter.mpr ⟨(mem_cleanupAll s summary t).mpr ⟨hfin, hcon⟩, ?_⟩
    rw [decide_eq_true_eq]
    intro hk
    rw [((mem_cleanupKeep s summary t).mp hk).1] at herr
    exact Bool.noConfusion herr

-- C6

/-- A temporary storage holding one target whose name is locked. -/
def tempLockedStorage : TargetStorage Nat := ⟨[(sigA, 0)], ["a"], true, fun _ => none⟩

/-- A finished (SUCCESS) task whose single input is `sigA`. -/
def successTaskA : FinishedTask := ⟨.SUCCESS, false, [[sigA]]⟩

/-- Counterexample to claim C6 as stated: a temporary storage does not always
remove the inputs of a SUCCESS task — when the input target's name is in the
storage's lock list, `cleanup` calls `remove`, which raises `TargetIsLocked`,
and the target stays in place. -/
theorem cleanup_locked_cex :
    TargetStorage.cleanup tempLockedStorage [successTaskA] = .error .targetIsLocked ∧
    tempLockedStorage.temporary = true ∧
    successTaskA.status = .SUCCESS ∧
    memContains tempLockedStorage.memory sigA = true := by
  refine ⟨?_, rfl, rfl, rfl⟩
  rfl

/-- Claim C6 (amended with the proviso that no input target's name is locked):
a non-temporary storage is left entirely unchanged by `cleanup`; a temporary
storage removes exactly those persisted targets that are inputs of a finalised
(SUCCESS, SKIPPED or REJECTED) task and not inputs of any ERROR task, keeping
everything else — in particular a target that is input to both an ERROR task
and a non-ERROR task is kept. -/
theorem cleanup_spec (s : TargetStorage α) (summary : List FinishedTask)
    (hlock : ∀ task ∈ summary, ∀ t ∈ task.inputs.flatten, t.name ∉ s.target_lock) :
    (s.temporary = false → TargetStorage.cleanup s summary = .ok s) ∧
    (s.temporary = true → ∃ s2, TargetStorage.cleanup s summary = .ok s2 ∧
      s2.target_lock = s.target_lock ∧ s2.temporary = s.temporary ∧
      ∀ t : Sig, memGet s2.memory t =
        if isFinishedInput summary t = true ∧ isErrorInput summary t = false
        then none else memGet s.memory t) := by
  constructor
  · intro hf
    rw [TargetStorage.cleanup, if_pos hf]
  · intro ht
    have hlock2 : ∀ t ∈ cleanupRemoveTargets s summary, t.name ∉ s.target_lock := by
      intro t hmem
      rcases (mem_cleanupRemove s summary t).mp hmem with ⟨_, hfin, _⟩
      rcases List.any_eq_true.mp hfin with ⟨task, hsum, hb⟩
      rw [Bool.and_eq_true, decide_eq_true_eq] at hb
      exact hlock task hsum t hb.2
    have hex2 : ∀ t ∈ cleanupRemoveTargets s summary, memContains s.memory t = true :=
      fun t hmem => ((mem_cleanupRemove s summary t).mp hmem).1
    have hnd2 : (cleanupRemoveTargets s summary).Nodup :=
      List.Nodup.filter _ (pyDedup_nodup _)
    have hfold := foldlM_remove (cleanupRemoveTargets s summary) s hnd2 hlock2 hex2
    refine ⟨⟨s.memory.filter
        (fun p => decide (p.1 ∉ cleanupRemoveTargets s summary)),
      s.target_lock, s.temporary, s.comparators⟩, ?_, rfl, rfl, ?_⟩
    · rw [TargetStorage.cleanup, if_neg (by simp [ht])]
      exact hfold
    · intro t
      show memGet (s.memory.filter _) t = _
      rw [memGet_removeAll]
      by_cases hrm : t ∈ cleanupRemoveTargets s summary
      · rcases (mem_cleanupRemove s summary t).mp hrm with ⟨_, hfin, herr⟩
        rw [if_pos hrm, if_pos ⟨hfin, herr⟩]
      · rw [if_neg hrm]
        by_cases hcond : isFinishedInput summary t = true ∧ isErrorInput summary t = false
        · rw [if_pos hcond]
          by_cases hcon : memContains s.memory t = true
          · exact absurd ((mem_cleanupRemove s summary t).mpr
              ⟨hcon, hcond.1, hcond.2⟩) hrm
          · rw [memContains] at hcon
            exact Option.not_isSome_iff_eq_none.mp (by simpa using hcon)
        · rw [if_neg hcond]

/-- Signature of the target `Target("b")` used by concrete witnesses. -/
def sigB : Sig := ⟨[], "b", []⟩

/-- A temporary storage with two persisted targets and no locks. -/
def cleanupWitnessStorage : TargetStorage Nat :=
  ⟨[(sigA, 0), (sigB, 1)], [], true, fun _ => none⟩

/-- Summary with a SUCCESS task (input `sigA`) and an ERROR task (input `sigB`). -/
def cleanupWitnessSummary : List FinishedTask :=
  [⟨.SUCCESS, false, [[sigA]]⟩, ⟨.ERROR, false, [[sigB]]⟩]

/-- Witness for `cleanup_spec` at a concrete lock-free temporary storage. -/
theorem cleanup_spec_witness :
    (cleanupWitnessStorage.temporary = false →
      TargetStorage.cleanup cleanupWitnessStorage cleanupWitnessSummary =
        .ok cleanupWitnessStorage) ∧
    (cleanupWitnessStorage.temporary = true → ∃ s2,
      TargetStorage.cleanup cleanupWitnessStorage cleanupWitnessSummary = .ok s2 ∧
      s2.target_lock = cleanupWitnessStorage.target_lock ∧
      s2.temporary = cleanupWitnessStorage.temporary ∧
      ∀ t : Sig, memGet s2.memory t =
        if isFinishedInput cleanupWitnessSummary t = true ∧
            isErrorInput cleanupWitnessSummary t = false
        then none else memGet cleanupWitnessStorage.memory t) :=
  cleanup_spec cleanupWitnessStorage cleanupWitnessSummary (by decide)

-- task input resolution (`machines/task.py`)

/-- The `requires` option of a machine, validated by the `Machine`
constructor to be "all" or "any" (`machine.py` lines 69-72). -/
inductive Requires
  | all | any
deriving DecidableEq

/-- Model of the `Task.fallback` property (`task.py` lines 155-158):
`self._fallback and (self.requires == "all")` — branch fallback is forbidden
when `requires == "any"`. -/
def taskFallback (fallbackFlag : Bool) (req : Requires) : Bool :=
  fallbackFlag && decide (req = .all)

/-- The inner `for input in inputs:` loop of `Task._update` (`task.py` lines
319-326): iterate the alternative input `TargetType`s in declared order and
take the first whose target `Target(dest, index, branch)` exists in the
factory's storages.  The existence oracle `ex` abstracts
`self.factory.exists` (storage routing is outside this claim). -/
def findAlt (ex : Sig → Bool) (alts : List String) (index branch : List Atom) :
    Option Sig :=
  (alts.find? (fun dest => ex ⟨index, dest, branch⟩)).map
    (fun dest => ⟨index, dest, branch⟩)

/-- The `while True:` branch-fallback loop of `Task._update` (`task.py` lines
316-338), with explicit fuel for structural recursion: if no alternative
exists and fallback is allowed and the branch is non-empty
(`branch != None`), crop the branch by one atom (`branch.crop(1)`, i.e. drop
the last atom) and retry.  Fuel `branch.length + 1` is always sufficient
since each iteration shortens the branch. -/
def resolveInputF (ex : Sig → Bool) (alts : List String) (index : List Atom)
    (fallback : Bool) : Nat → List Atom → Option Sig
  | 0, _ => none
  | fuel + 1, branch =>
    match findAlt ex alts index branch with
    | some t => some t
    | none =>
      if fallback && !branch.isEmpty then
        resolveInputF ex alts index fallback fuel branch.dropLast
      else none

/-- Resolution of one input name for one identifier: the fallback loop run
with adequate fuel. -/
def resolveInput (ex : Sig → Bool) (alts : List String) (index : List Atom)
    (fallback : Bool) (branch : List Atom) : Option Sig :=
  resolveInputF ex alts index fallback (branch.length + 1) branch

/-- The `targets` dictionary built for one identifier by `Task._update`
(`task.py` lines 310-338): one entry per machine input name that resolved.
`minputs` models `self.machine.inputs`, an ordered mapping from input name
to the list of alternative destinations. -/
def resolveTargets (ex : Sig → Bool) (minputs : List (String × List String))
    (fallback : Bool) (id : (List Atom) × (List Atom)) : List (String × Sig) :=
  minputs.filterMap (fun nb =>
    (resolveInput ex nb.2 id.1 fallback id.2).map (fun t => (nb.1, t)))

/-- The exact-branch guard of `Task._update` (`task.py` lines 340-345):
`if all(target.branch != id.branch for target in targets.values()): continue`
— the targets resolved for an identifier are kept only if at least one has
exactly the requested branch. -/
def foundForId (ex : Sig → Bool) (minputs : List (String × List String))
    (fallback : Bool) (id : (List Atom) × (List Atom)) : List (String × Sig) :=
  let targets := resolveTargets ex minputs fallback id
  if targets.all (fun p => !(p.2.branch == id.2)) then [] else targets

/-- Dictionary lookup in the per-identifier `targets` mapping. -/
def lookupName (l : List (String × Sig)) (n : String) : Option Sig :=
  (l.find? (fun p => p.1 == n)).map (fun p => p.2)

/-- The `found_inputs` accumulator of `Task._update` (`task.py` lines
305-345): for each input name, the list of targets found across the task's
input identifiers (in identifier order). -/
def updateFound (ex : Sig → Bool) (minputs : List (String × List String))
    (fallback : Bool) (input_ids : List ((List Atom) × (List Atom))) :
    List (String × List Sig) :=
  minputs.map (fun nb =>
    (nb.1, input_ids.filterMap (fun id => lookupName (foundForId ex minputs fallback id) nb.1)))

/-- Model of `Task.ready` (`task.py` lines 355-367) combined with the final
assignment of `Task._update` (lines 347-353): with no declared inputs the
task is ready; otherwise `available_inputs` maps each input name to the
first found target (non-aggregating) or the full list (aggregating), and
readiness is `bool(available_inputs) & bool(join(values))` with
`join = all / any` per `requires` (Python truthiness: `None` and the empty
list are falsy). -/
def taskReady (ex : Sig → Bool) (minputs : List (String × List String))
    (input_ids : List ((List Atom) × (List Atom))) (fallback : Bool)
    (aggregate : Bool) (req : Requires) : Bool :=
  if minputs.isEmpty then true
  else
    let found := updateFound ex minputs fallback input_ids
    let vals : List Bool :=
      if aggregate then found.map (fun p => !p.2.isEmpty)
      else found.map (fun p => p.2.head?.isSome)
    (!found.isEmpty) && (match req with
      | .all => vals.all (fun b => b)
      | .any => vals.any (fun b => b))

-- C1

lemma findAlt_none (ex : Sig → Bool) (alts : List String) (index branch : List Atom)
    (h : ∀ d ∈ alts, ex ⟨index, d, branch⟩ = false) :
    findAlt ex alts index branch = none := by
  rw [findAlt, List.find?_eq_none.mpr (fun d hd => by simp [h d hd]), Option.map_none']

/-- Claim C1: branch fallback during input resolution.  `Task.fallback` is
the caller's flag for `requires = "all"` and `false` for `requires = "any"`;
with fallback on, when no alternative destination exists at the requested
branch (and the branch is non-empty) the branch is cropped by one atom and
the alternatives are retried, so a target missing on branch `[b1, b2]` but
existing on `[b1]` resolves to the `[b1]` target; with fallback off the
loop runs exactly once (no cropping). -/
theorem branch_fallback_spec :
    (∀ fb : Bool, taskFallback fb .all = fb ∧ taskFallback fb .any = false) ∧
    (∀ (ex : Sig → Bool) (alts : List String) (index branch : List Atom),
      (∀ d ∈ alts, ex ⟨index, d, branch⟩ = false) → branch ≠ [] →
      resolveInput ex alts index true branch =
        resolveInput ex alts index true branch.dropLast) ∧
    (∀ (ex : Sig → Bool) (alts : List String) (index branch : List Atom),
      resolveInput ex alts index false branch = findAlt ex alts index branch) ∧
    (∀ (ex : Sig → Bool) (d : String) (index : List Atom) (b1 b2 : Atom),
      ex ⟨index, d, [b1, b2]⟩ = false → ex ⟨index, d, [b1]⟩ = true →
      resolveInput ex [d] index true [b1, b2] = some ⟨index, d, [b1]⟩) := by
  refine ⟨?_, ?_, ?_, ?_⟩
  · intro fb
    constructor
    · simp [taskFallback]
    · simp [taskFallback]
  · intro ex alts index branch h hne
    rw [resolveInput, resolveInputF, findAlt_none ex alts index branch h]
    have hlen : branch.dropLast.length + 1 = branch.length := by
      rw [List.length_dropLast]
      have : branch.length ≠ 0 := fun h0 => hne (List.length_eq_zero.mp h0)
      omega
    rw [if_pos (by simp [hne]), resolveInput, hlen]
  · intro ex alts index branch
    cases h : findAlt ex alts index branch with
    | some t => rw [resolveInput, resolveInputF, h]
    | none => rw [resolveInput, resolveInputF, h, if_neg (by simp)]
  · intro ex d index b1 b2 h1 h2
    have hf1 : findAlt ex [d] index [b1, b2] = none :=
      findAlt_none ex [d] index [b1, b2] (by intro x hx; rw [List.mem_singleton.mp hx]; exact h1)
    have hf2 : findAlt ex [d] index [b1] = some ⟨index, d, [b1]⟩ := by
      have hfind : List.find? (fun dest => ex ⟨index, dest, [b1]⟩) [d] = some d :=
        List.find?_cons_of_pos [] h2
      rw [findAlt, hfind, Option.map_some']
    rw [resolveInput]
    show resolveInputF ex [d] index true (2 + 1) [b1, b2] = _
    rw [resolveInputF, hf1, if_pos (by simp)]
    show resolveInputF ex [d] index true (1 + 1) [b1] = _
    rw [resolveInputF, hf2]

/-- Witness for `branch_fallback_spec`: a concrete resolution that falls back
from branch `[b1, b2]` to `[b1]`. -/
theorem branch_fallback_spec_witness :
    resolveInput (fun t => decide (t = ⟨[], "A", ["b1"]⟩)) ["A"] [] true ["b1", "b2"] =
      some ⟨[], "A", ["b1"]⟩ :=
  branch_fallback_spec.2.2.2 (fun t => decide (t = ⟨[], "A", ["b1"]⟩)) "A" [] "b1" "b2"
    (by decide) (by decide)

-- C9

/-- Claim C9: the exact-branch guard.  If for every input identifier no
resolved target's branch equals the identifier's requested branch exactly,
then every identifier's resolved targets are discarded, `found_inputs` is
empty for every input name, and the task is not ready (for both values of
`requires` and both aggregation modes), provided the machine declares at
least one input. -/
theorem exact_branch_guard_spec (ex : Sig → Bool)
    (minputs : List (String × List String)) (fallback : Bool)
    (input_ids : List ((List Atom) × (List Atom))) (aggregate : Bool)
    (req : Requires) (hne : minputs ≠ [])
    (h : ∀ id ∈ input_ids, ∀ p ∈ resolveTargets ex minputs fallback id,
      p.2.branch ≠ id.2) :
    (∀ id ∈ input_ids, foundForId ex minputs fallback id = []) ∧
    (∀ nb ∈ updateFound ex minputs fallback input_ids, nb.2 = []) ∧
    taskReady ex minputs input_ids fallback aggregate req = false := by
  have hempty : ∀ id ∈ input_ids, foundForId ex minputs fallback id = [] := by
    intro id hid
    rw [foundForId]
    rw [if_pos (List.all_eq_true.mpr (fun p hp => by simp [h id hid p hp]))]
  have hfound : ∀ nb ∈ updateFound ex minputs fallback input_ids, nb.2 = [] := by
    intro nb hnb
    rcases List.mem_map.mp hnb with ⟨m, _, rfl⟩
    show List.filterMap _ _ = []
    rw [List.filterMap_eq_nil_iff]
    intro id hid
    rw [hempty id hid]
    rfl
  refine ⟨hempty, hfound, ?_⟩
  rw [taskReady, if_neg (by simp [hne])]
  have hvals : ∀ b ∈ (if aggregate then
      (updateFound ex minputs fallback input_ids).map (fun p => !p.2.isEmpty)
      else (updateFound ex minputs fallback input_ids).map
        (fun p => p.2.head?.isSome)), b = false := by
    intro b hb
    rcases aggregate with _ | _ <;>
    · simp only [if_true, if_false, Bool.false_eq_true] at hb
      rcases List.mem_map.mp hb with ⟨p, hp, rfl⟩
      rw [hfound p hp]
      rfl
  have hlen : ¬ (updateFound ex minputs fallback input_ids).isEmpty = true := by
    rw [updateFound]
    cases minputs with
    | nil => exact absurd rfl hne
    | cons m rest => simp [List.isEmpty]
  cases req with
  | all =>
    have hex : ∃ b, b ∈ (if aggregate then
        (updateFound ex minputs fallback input_ids).map (fun p => !p.2.isEmpty)
        else (updateFound ex minputs fallback input_ids).map
          (fun p => p.2.head?.isSome)) := by
      apply List.exists_mem_of_ne_nil
      rcases aggregate with _ | _ <;>
      · simp only [Bool.false_eq_true, if_true, if_false, ne_eq, List.map_eq_nil_iff]
        intro hnil
        rw [updateFound] at hnil
        exact hne (List.map_eq_nil_iff.mp hnil)
    rcases hex with ⟨b, hb⟩
    have hall : (if aggregate then
        (updateFound ex minputs fallback input_ids).map (fun p => !p.2.isEmpty)
        else (updateFound ex minputs fallback input_ids).map
          (fun p => p.2.head?.isSome)).all (fun x => x) = false := by
      apply Bool.eq_false_iff.mpr
      intro htrue
      have := List.all_eq_true.mp htrue b hb
      rw [hvals b hb] at this
      exact Bool.noConfusion this
    simp only [hall, Bool.and_false]
  | any =>
    have hany : (if aggregate then
        (updateFound ex minputs fallback input_ids).map (fun p => !p.2.isEmpty)
        else (updateFound ex minputs fallback input_ids).map
          (fun p => p.2.head?.isSome)).any (fun x => x) = false := by
      apply Bool.eq_false_iff.mpr
      intro htrue
      rcases List.any_eq_true.mp htrue with ⟨b, hb, hbt⟩
      rw [hvals b hb] at hbt
      exact Bool.noConfusion hbt
    simp only [hany, Bool.and_false]

/-- Witness for `exact_branch_guard_spec`: one input resolved only through
fallback (target exists at `[b1]`, requested branch `[b1, b2]`), so the task
records nothing and is not ready. -/
theorem exact_branch_guard_witness :
    (∀ id ∈ [(([] : List Atom), ["b1", "b2"])],
      foundForId (fun t => decide (t = ⟨[], "A", ["b1"]⟩)) [("A", ["A"])] true id = []) ∧
    (∀ nb ∈ updateFound (fun t => decide (t = ⟨[], "A", ["b1"]⟩)) [("A", ["A"])] true
        [(([] : List Atom), ["b1", "b2"])], nb.2 = []) ∧
    taskReady (fun t => decide (t = ⟨[], "A", ["b1"]⟩)) [("A", ["A"])]
      [(([] : List Atom), ["b1", "b2"])] true false .all = false :=
  exact_branch_guard_spec (fun t => decide (t = ⟨[], "A", ["b1"]⟩)) [("A", ["A"])] true
    [(([] : List Atom), ["b1", "b2"])] false .all (by decide) (by decide)

-- factory worker loop (`machines/factory.py`) and `Task.safe_run`

/-- Outcome of the machine function call in `Task.safe_run` (`task.py` lines
520-543): a raised `RejectException`, a raised `ExpectedError`, any other
exception, or a returned value. -/
inductive FuncOutcome (α : Type)
  | reject | expectedError | errorOther | value (v : α)

/-- A task as the factory worker sees it: unique id (`Task.uuid`), the data
driving input resolution (`machine.inputs`, `input_ids`, `aggregate`,
`requires`, the caller's fallback flag), the output target, the write mode,
and the machine function's outcome. -/
structure WTask (α : Type) where
  uuid : Nat
  minputs : List (String × List String)
  input_ids : List ((List Atom) × (List Atom))
  aggregate : Bool
  requires : Requires
  fallbackFlag : Bool
  output : Option Sig
  mode : Option String
  func : FuncOutcome α

/-- `Task.complete` (`task.py` lines 369-374): the output target exists
(tasks without an output are never complete). -/
def WTask.complete (st : TargetStorage α) (t : WTask α) : Bool :=
  match t.output with
  | none => false
  | some o => memContains st.memory o

/-- `Task.ready` of this task against the factory storage. -/
def WTask.readyIn (st : TargetStorage α) (t : WTask α) : Bool :=
  taskReady (fun sig => memContains st.memory sig) t.minputs t.input_ids
    (taskFallback t.fallbackFlag t.requires) t.aggregate t.requires

/-- Model of `Task.safe_run` (`task.py` lines 487-559) as a state
transition: the resulting status, the possibly-updated storage, and whether
the machine function was invoked.  The factory's storages are collapsed
into one `TargetStorage` (the `get_storage` routing is orthogonal here).
The `RuntimeError` guard for terminated tasks (lines 489-490) is respected
by the worker loop, which only re-queues PENDING tasks. -/
def safeRun [BEq α] (st : TargetStorage α) (t : WTask α) :
    Status × TargetStorage α × Bool :=
  if WTask.complete st t && t.mode.isNone then
    (.SKIPPED, st, false)
  else if !(WTask.readyIn st t) then
    (.PENDING, st, false)
  else
    match t.func with
    | .reject => (.REJECTED, st, true)
    | .expectedError => (.ERROR, st, true)
    | .errorOther => (.ERROR, st, true)
    | .value v =>
      match t.output with
      | none => (.SUCCESS, st, true)
      | some o =>
        match TargetStorage.write st o v t.mode with
        | .ok r => (.SUCCESS, r.storage, true)
        | .error _ => (.ERROR, st, true)

/-- Result of one inner drain pass of the worker thread. -/
structure PassResult (α : Type) where
  store : TargetStorage α
  summary : List (WTask α × Status)
  pending : List (WTask α)
  updated : Bool
  invoked : List Nat

/-- The inner drain loop of `Factory.WorkThread.run` (`factory.py` lines
327-357): pop each queued task once, run it, collect PENDING tasks for
re-queueing and the others into the summary; `updated` records whether some
task succeeded this pass; `invoked` logs the uuid of every task whose
function was called.  The stop flag and concurrent `add_task` are not
exercised during the runs the claim describes and are not modelled. -/
def drainQueue [BEq α] (st : TargetStorage α) : List (WTask α) → PassResult α
  | [] => ⟨st, [], [], false, []⟩
  | t :: rest =>
    let step := safeRun st t
    let r := drainQueue step.2.1 rest
    let entry : List Nat := if step.2.2 then [t.uuid] else []
    if step.1 = .PENDING then
      ⟨r.store, r.summary, t :: r.pending, r.updated, entry ++ r.invoked⟩
    else
      ⟨r.store, (t, step.1) :: r.summary, r.pending,
        (decide (step.1 = .SUCCESS)) || r.updated, entry ++ r.invoked⟩

/-- Result of a full worker run. -/
structure RunResult (α : Type) where
  store : TargetStorage α
  summary : List (WTask α × Status)
  pending : List (WTask α)
  passes : Nat
  invoked : List Nat

/-- The outer loop of `Factory.WorkThread.run` (`factory.py` lines 317-390):
re-enqueue the pending tasks and run another pass while some task succeeded
(`updated`); exit otherwise.  Written with explicit fuel (`none` on
exhaustion); the scheduler theorem proves fuel `queue.length + 1` always
suffices, which is the loop-termination claim. -/
def workerRunF [BEq α] : Nat → TargetStorage α → List (WTask α) → Option (RunResult α)
  | 0, _, _ => none
  | fuel + 1, st, q =>
    let r := drainQueue st q
    if r.updated then
      match workerRunF fuel r.store r.pending with
      | none => none
      | some r2 => some ⟨r2.store, r.summary ++ r2.summary, r2.pending,
          r2.passes + 1, r.invoked ++ r2.invoked⟩
    else some ⟨r.store, r.summary, r.pending, 1, r.invoked⟩

lemma safeRun_cases [BEq α] (st : TargetStorage α) (t : WTask α) :
    ((safeRun st t).1 = .SKIPPED ∧ (safeRun st t).2.1 = st ∧ (safeRun st t).2.2 = false) ∨
    ((safeRun st t).1 = .PENDING ∧ (safeRun st t).2.1 = st ∧ (safeRun st t).2.2 = false) ∨
    ((safeRun st t).1 = .REJECTED ∧ (safeRun st t).2.1 = st ∧ (safeRun st t).2.2 = true) ∨
    ((safeRun st t).1 = .ERROR ∧ (safeRun st t).2.1 = st ∧ (safeRun st t).2.2 = true) ∨
    ((safeRun st t).1 = .SUCCESS ∧ (safeRun st t).2.2 = true) := by
  rw [safeRun]
  by_cases h1 : (WTask.complete st t && t.mode.isNone) = true
  · rw [if_pos h1]
    exact Or.inl ⟨rfl, rfl, rfl⟩
  · rw [if_neg h1]
    by_cases h2 : (!(WTask.readyIn st t)) = true
    · rw [if_pos h2]
      exact Or.inr (Or.inl ⟨rfl, rfl, rfl⟩)
    · rw [if_neg h2]
      cases t.func with
      | reject =>
        refine Or.inr (Or.inr (Or.inl ⟨?_, ?_, ?_⟩)) <;> trivial
      | expectedError =>
        refine Or.inr (Or.inr (Or.inr (Or.inl ⟨?_, ?_, ?_⟩))) <;> trivial
      | errorOther =>
        refine Or.inr (Or.inr (Or.inr (Or.inl ⟨?_, ?_, ?_⟩))) <;> trivial
      | value v =>
        cases t.output with
        | none =>
          refine Or.inr (Or.inr (Or.inr (Or.inr ⟨?_, ?_⟩))) <;> trivial
        | some o =>
          cases hw : TargetStorage.write st o v t.mode with
          | ok r =>
            simp only [hw]
            refine Or.inr (Or.inr (Or.inr (Or.inr ⟨?_, ?_⟩))) <;> trivial
          | error e =>
            simp only [hw]
            refine Or.inr (Or.inr (Or.inr (Or.inl ⟨?_, ?_, ?_⟩))) <;> trivial

lemma safeRun_store_of_ne_success [BEq α] (st : TargetStorage α) (t : WTask α)
    (h : ¬ ((safeRun st t).1 = .SUCCESS)) : (safeRun st t).2.1 = st := by
  rcases safeRun_cases st t with ⟨_, h2, _⟩ | ⟨_, h2, _⟩ | ⟨_, h2, _⟩ | ⟨_, h2, _⟩ | ⟨h1, _⟩
  · exact h2
  · exact h2
  · exact h2
  · exact h2
  · exact absurd h1 h

lemma safeRun_pending_flags [BEq α] (st : TargetStorage α) (t : WTask α)
    (h : (safeRun st t).1 = .PENDING) :
    (safeRun st t).2.1 = st ∧ (safeRun st t).2.2 = false := by
  rcases safeRun_cases st t with ⟨h1, h2, h3⟩ | ⟨h1, h2, h3⟩ | ⟨h1, h2, h3⟩ | ⟨h1, h2, h3⟩ | ⟨h1, _⟩ <;>
    first
      | exact ⟨h2, h3⟩
      | (rw [h] at h1; exact absurd h1.symm (by decide))

lemma drain_summary_status [BEq α] (st : TargetStorage α) (q : List (WTask α)) :
    ∀ p ∈ (drainQueue st q).summary,
      p.2 = .SUCCESS ∨ p.2 = .SKIPPED ∨ p.2 = .REJECTED ∨ p.2 = .ERROR := by
  induction q generalizing st with
  | nil => intro p hp; exact absurd hp (List.not_mem_nil p)
  | cons t rest ih =>
    intro p hp
    rw [drainQueue] at hp
    by_cases hpd : (safeRun st t).1 = .PENDING
    · rw [if_pos hpd] at hp
      exact ih _ p hp
    · rw [if_neg hpd] at hp
      rcases List.mem_cons.mp hp with h | h
      · rcases safeRun_cases st t with ⟨h1, _, _⟩ | ⟨h1, _, _⟩ | ⟨h1, _, _⟩ | ⟨h1, _, _⟩ | ⟨h1, _⟩ <;>
          first
            | exact absurd h1 hpd
            | (rw [h, h1]; tauto)
      · exact ih _ p h

lemma drain_length [BEq α] (st : TargetStorage α) (q : List (WTask α)) :
    (drainQueue st q).summary.length + (drainQueue st q).pending.length = q.length := by
  induction q generalizing st with
  | nil => rfl
  | cons t rest ih =>
    rw [drainQueue]
    by_cases hpd : (safeRun st t).1 = .PENDING
    · rw [if_pos hpd]
      show (drainQueue _ rest).summary.length + ((drainQueue _ rest).pending.length + 1) = rest.length + 1
      have := ih ((safeRun st t).2.1)
      omega
    · rw [if_neg hpd]
      show (drainQueue _ rest).summary.length + 1 + (drainQueue _ rest).pending.length = rest.length + 1
      have := ih ((safeRun st t).2.1)
      omega

lemma drain_updated_summary_ne [BEq α] (st : TargetStorage α) (q : List (WTask α))
    (h : (drainQueue st q).updated = true) : (drainQueue st q).summary ≠ [] := by
  induction q generalizing st with
  | nil => exact absurd h (by rw [drainQueue]; exact Bool.noConfusion)
  | cons t rest ih =>
    rw [drainQueue] at h ⊢
    by_cases hpd : (safeRun st t).1 = .PENDING
    · rw [if_pos hpd] at h ⊢
      exact ih _ h
    · rw [if_neg hpd]
      exact List.cons_ne_nil _ _

lemma drain_not_updated [BEq α] (st : TargetStorage α) (q : List (WTask α))
    (h : (drainQueue st q).updated = false) :
    (drainQueue st q).store = st ∧
      ∀ t ∈ (drainQueue st q).pending, (safeRun st t).1 = .PENDING := by
  induction q generalizing st with
  | nil =>
    exact ⟨rfl, fun t ht => absurd ht (List.not_mem_nil t)⟩
  | cons t rest ih =>
    rw [drainQueue] at h ⊢
    by_cases hpd : (safeRun st t).1 = .PENDING
    · rw [if_pos hpd] at h ⊢
      have hst : (safeRun st t).2.1 = st := (safeRun_pending_flags st t hpd).1
      rw [hst] at h ⊢
      rcases ih st h with ⟨h1, h2⟩
      refine ⟨h1, ?_⟩
      intro u hu
      rcases List.mem_cons.mp hu with rfl | hu2
      · exact hpd
      · exact h2 u hu2
    · rw [if_neg hpd] at h ⊢
      have hsplit : ¬ ((safeRun st t).1 = Status.SUCCESS) ∧
          (drainQueue (safeRun st t).2.1 rest).updated = false := by
        simpa using h
      have hst : (safeRun st t).2.1 = st :=
        safeRun_store_of_ne_success st t hsplit.1
      have hupd : (drainQueue st rest).updated = false := by
        have h2 := hsplit.2
        rw [hst] at h2
        exact h2
      refine ⟨?_, ?_⟩
      · show (drainQueue (safeRun st t).2.1 rest).store = st
        rw [hst]
        exact (ih st hupd).1
      · intro u hu
        have hu2 : u ∈ (drainQueue st rest).pending := by
          rw [← hst]
          exact hu
        exact (ih st hupd).2 u hu2

lemma drain_pending_sublist [BEq α] (st : TargetStorage α) (q : List (WTask α)) :
    (drainQueue st q).pending.Sublist q := by
  induction q generalizing st with
  | nil => rw [drainQueue]
  | cons t rest ih =>
    rw [drainQueue]
    by_cases hpd : (safeRun st t).1 = .PENDING
    · rw [if_pos hpd]
      exact List.Sublist.cons₂ t (ih _)
    · rw [if_neg hpd]
      exact List.Sublist.cons t (ih _)

lemma drain_invoked_sublist [BEq α] (st : TargetStorage α) (q : List (WTask α)) :
    (drainQueue st q).invoked.Sublist (q.map WTask.uuid) := by
  induction q generalizing st with
  | nil => rw [drainQueue, List.map_nil]
  | cons t rest ih =>
    rw [drainQueue, List.map_cons]
    by_cases hpd : (safeRun st t).1 = .PENDING
    · rw [if_pos hpd]
      show (_ ++ (drainQueue _ rest).invoked).Sublist _
      by_cases hinv : (safeRun st t).2.2 = true
      · rw [if_pos hinv]
        exact List.Sublist.cons₂ t.uuid (ih _)
      · rw [if_neg hinv, List.nil_append]
        exact List.Sublist.cons t.uuid (ih _)
    · rw [if_neg hpd]
      show (_ ++ (drainQueue _ rest).invoked).Sublist _
      by_cases hinv : (safeRun st t).2.2 = true
      · rw [if_pos hinv]
        exact List.Sublist.cons₂ t.uuid (ih _)
      · rw [if_neg hinv, List.nil_append]
        exact List.Sublist.cons t.uuid (ih _)

lemma drain_invoked_pending_disjoint [BEq α] (st : TargetStorage α) (q : List (WTask α))
    (hnd : (q.map WTask.uuid).Nodup) :
    ∀ u ∈ (drainQueue st q).invoked, u ∉ (drainQueue st q).pending.map WTask.uuid := by
  induction q generalizing st with
  | nil => intro u hu; exact absurd hu (List.not_mem_nil u)
  | cons t rest ih =>
    rw [List.map_cons, List.nodup_cons] at hnd
    rcases hnd with ⟨hhead, htail⟩
    intro u hu
    rw [drainQueue] at hu ⊢
    by_cases hpd : (safeRun st t).1 = .PENDING
    · rw [if_pos hpd] at hu ⊢
      have hinv : (safeRun st t).2.2 = false := (safeRun_pending_flags st t hpd).2
      rw [hinv] at hu
      simp only [Bool.false_eq_true, if_false, List.nil_append] at hu
      show ¬ u ∈ (t :: (drainQueue _ rest).pending).map WTask.uuid
      rw [List.map_cons]
      intro hmem
      rcases List.mem_cons.mp hmem with h | h
      · have humem : u ∈ rest.map WTask.uuid :=
          (drain_invoked_sublist _ rest).subset hu
        rw [h] at humem
        exact hhead humem
      · exact ih _ htail u hu h
    · rw [if_neg hpd] at hu ⊢
      rcases List.mem_append.mp hu with h | h
      · have hut : u = t.uuid := by
          by_cases hinv : (safeRun st t).2.2 = true
          · rw [if_pos hinv] at h
            exact List.mem_singleton.mp h
          · rw [if_neg hinv] at h
            exact absurd h (List.not_mem_nil u)
        intro hmem
        have : u ∈ rest.map WTask.uuid :=
          (List.Sublist.map WTask.uuid (drain_pending_sublist _ rest)).subset hmem
        rw [hut] at this
        exact hhead this
      · exact ih _ htail u h

lemma workerRun_aux [BEq α] : ∀ (n : Nat) (st : TargetStorage α) (q : List (WTask α)),
    q.length ≤ n → (q.map WTask.uuid).Nodup →
    ∃ r, workerRunF (n + 1) st q = some r ∧
      (∀ p ∈ r.summary, p.2 = .SUCCESS ∨ p.2 = .SKIPPED ∨ p.2 = .REJECTED ∨ p.2 = .ERROR) ∧
      (∀ t ∈ r.pending, (safeRun r.store t).1 = .PENDING) ∧
      r.summary.length + r.pending.length = q.length ∧
      r.passes ≤ q.length + 1 ∧
      r.invoked.Nodup ∧
      (∀ u ∈ r.invoked, u ∈ q.map WTask.uuid) ∧
      (r.pending.map WTask.uuid).Sublist (q.map WTask.uuid) ∧
      (∀ u ∈ r.invoked, u ∉ r.pending.map WTask.uuid) := by
  intro n
  induction n with
  | zero =>
    intro st q hlen hnd
    have hq : q = [] := List.length_eq_zero.mp (Nat.le_zero.mp hlen)
    subst hq
    refine ⟨⟨st, [], [], 1, []⟩, rfl, ?_, ?_, rfl, ?_, List.nodup_nil, ?_, ?_, ?_⟩
    · intro p hp; exact absurd hp (List.not_mem_nil p)
    · intro t ht; exact absurd ht (List.not_mem_nil t)
    · exact Nat.le_refl 1
    · intro u hu; exact absurd hu (List.not_mem_nil u)
    · exact List.Sublist.refl _
    · intro u hu; exact absurd hu (List.not_mem_nil u)
  | succ n ih =>
    intro st q hlen hnd
    by_cases hupd : (drainQueue st q).updated = true
    · have hne : (drainQueue st q).summary ≠ [] :=
        drain_updated_summary_ne st q hupd
      have hlt : (drainQueue st q).pending.length < q.length := by
        have hL := drain_length st q
        have hpos : 0 < (drainQueue st q).summary.length := List.length_pos.mpr hne
        omega
      have hnd2 : ((drainQueue st q).pending.map WTask.uuid).Nodup :=
        List.Nodup.sublist (List.Sublist.map WTask.uuid (drain_pending_sublist st q)) hnd
      have hlen2 : (drainQueue st q).pending.length ≤ n := by omega
      obtain ⟨r2, hr2, p1, p2, p3, p4, p5, p6, p7, p8⟩ :=
        ih (drainQueue st q).store (drainQueue st q).pending hlen2 hnd2
      refine ⟨⟨r2.store, (drainQueue st q).summary ++ r2.summary, r2.pending,
        r2.passes + 1, (drainQueue st q).invoked ++ r2.invoked⟩, ?_, ?_, ?_, ?_, ?_, ?_, ?_, ?_, ?_⟩
      · show workerRunF (n + 1 + 1) st q = _
        rw [workerRunF]
        simp only [hupd, if_true, hr2]
      · intro p hp
        rcases List.mem_append.mp hp with h | h
        · exact drain_summary_status st q p h
        · exact p1 p h
      · exact p2
      · have hL := drain_length st q
        show ((drainQueue st q).summary ++ r2.summary).length + r2.pending.length = q.length
        rw [List.length_append]
        omega
      · show r2.passes + 1 ≤ q.length + 1
        omega
      · refine List.Nodup.append ?_ p5 ?_
        · exact List.Nodup.sublist (drain_invoked_sublist st q) hnd
        · intro u hu1 hu2
          exact drain_invoked_pending_disjoint st q hnd u hu1 (p6 u hu2)
      · intro u hu
        rcases List.mem_append.mp hu with h | h
        · exact (drain_invoked_sublist st q).subset h
        · exact (List.Sublist.map WTask.uuid (drain_pending_sublist st q)).subset (p6 u h)
      · exact p7.trans (List.Sublist.map WTask.uuid (drain_pending_sublist st q))
      · intro u hu
        rcases List.mem_append.mp hu with h | h
        · intro hmem
          exact drain_invoked_pending_disjoint st q hnd u h (p7.subset hmem)
        · exact p8 u h
    · have hupd2 : (drainQueue st q).updated = false := Bool.eq_false_iff.mpr hupd
      obtain ⟨hst, hpend⟩ := drain_not_updated st q hupd2
      refine ⟨⟨(drainQueue st q).store, (drainQueue st q).summary,
        (drainQueue st q).pending, 1, (drainQueue st q).invoked⟩, ?_, ?_, ?_, ?_, ?_, ?_, ?_, ?_, ?_⟩
      · show workerRunF (n + 1 + 1) st q = _
        rw [workerRunF]
        simp only [hupd2, Bool.false_eq_true, if_false]
      · exact drain_summary_status st q
      · intro t ht
        show (safeRun (drainQueue st q).store t).1 = .PENDING
        rw [hst]
        exact hpend t ht
      · exact drain_length st q
      · show (1 : Nat) ≤ q.length + 1
        omega
      · exact List.Nodup.sublist (drain_invoked_sublist st q) hnd
      · intro u hu
        exact (drain_invoked_sublist st q).subset hu
      · exact List.Sublist.map WTask.uuid (drain_pending_sublist st q)
      · exact drain_invoked_pending_disjoint st q hnd

/-- Claim C5: the worker loop on a task queue with distinct task uuids.
With fuel `queue.length + 1` the loop completes (termination: every outer
pass in which no task succeeds exits, and a pass that continues has
strictly fewer tasks left, so at most `length + 1` passes run); every
summarised task ends in a terminal state (SUCCESS, SKIPPED, REJECTED or
ERROR); every task still pending at exit is not runnable against the final
storage (its prerequisites never became available); every task is accounted
for (summary + pending = queue); and no task's function is invoked more
than once (the invocation log has no duplicates — once terminal, a task is
never re-queued, and PENDING runs never invoke the function). -/
theorem scheduler_run_spec [BEq α] (st : TargetStorage α) (q : List (WTask α))
    (hnd : (q.map WTask.uuid).Nodup) :
    ∃ r, workerRunF (q.length + 1) st q = some r ∧
      (∀ p ∈ r.summary, p.2 = .SUCCESS ∨ p.2 = .SKIPPED ∨ p.2 = .REJECTED ∨ p.2 = .ERROR) ∧
      (∀ t ∈ r.pending, (safeRun r.store t).1 = .PENDING) ∧
      r.summary.length + r.pending.length = q.length ∧
      r.passes ≤ q.length + 1 ∧
      r.invoked.Nodup := by
  obtain ⟨r, h0, h1, h2, h3, h4, h5, _, _, _⟩ :=
    workerRun_aux q.length st q (Nat.le_refl _) hnd
  exact ⟨r, h0, h1, h2, h3, h4, h5⟩

/-- A task with no declared inputs that writes `5` to `Target("a")`. -/
def schedTask : WTask Nat := ⟨0, [], [], false, .all, true, some sigA, none, .value 5⟩

/-- Witness for `scheduler_run_spec` on a one-task queue. -/
theorem scheduler_run_witness :
    ∃ r, workerRunF ([schedTask].length + 1) emptyNatStorage [schedTask] = some r ∧
      (∀ p ∈ r.summary, p.2 = .SUCCESS ∨ p.2 = .SKIPPED ∨ p.2 = .REJECTED ∨ p.2 = .ERROR) ∧
      (∀ t ∈ r.pending, (safeRun r.store t).1 = .PENDING) ∧
      r.summary.length + r.pending.length = [schedTask].length ∧
      r.passes ≤ [schedTask].length + 1 ∧
      r.invoked.Nodup :=
  scheduler_run_spec emptyNatStorage [schedTask] (List.nodup_singleton _)

-- path grammar (`machines/targetpath.py`)

/-- A character permitted in an index or branch atom: the class
`[a-zA-Z0-9+\-_:()]` of `RE_ID_REGEX` (`target.py` lines 16-17), which is
also the `idexpr` character class of `IdToPathExpr` (`targetpath.py` lines
423-424, 481-484: the default id chars minus the generative separator "."). -/
def isIdChar (c : Char) : Bool :=
  c.isAlphanum || c == '+' || c == '-' || c == '_' || c == ':' || c == '(' || c == ')'

/-- A character permitted in a target name inside a path: the class
`[0-9a-zA-Z+\-_]` built from `targetchars` (`targetpath.py` lines 318-319,
383), matching `RE_TARGET_REGEX` (`target.py` lines 12-13) on ASCII. -/
def isNameChar (c : Char) : Bool :=
  c.isAlphanum || c == '+' || c == '-' || c == '_'

/-- A target as the converter sees it, over explicit character lists:
the signature `(name, index, branch)` compared by `Target.__eq__`. -/
structure PTarget where
  name : List Char
  index : List (List Char)
  branch : List (List Char)
deriving DecidableEq

/-- A valid atom value (`RE_ID_REGEX`): non-empty, all id characters. -/
def validAtom (a : List Char) : Bool := !a.isEmpty && a.all isIdChar

/-- A valid target name (`RE_TARGET_REGEX` on ASCII): non-empty, all name
characters. -/
def validName (n : List Char) : Bool := !n.isEmpty && n.all isNameChar

/-- The `Target` constructor invariant: valid name and valid atoms
(`target.py` lines 44-58, 260-280). -/
def validTarget (t : PTarget) : Bool :=
  validName t.name && t.index.all validAtom && t.branch.all validAtom

/-- Join chunks with a separator character (`id_to_string` with `sep`). -/
def joinSep (sep : Char) : List (List Char) → List Char
  | [] => []
  | g :: gs => g ++ (gs.map (fun x => sep :: x)).flatten

/-- `IdToPathExpr.to_path` for the default index template `<id>[.<id>]` with
literal `noid` (`targetpath.py` lines 508-547): the empty identifier renders
as `noid`, otherwise the atoms are joined with ".". -/
def idToPath (noid : List Char) (atoms : List (List Char)) : List Char :=
  match atoms with
  | [] => noid
  | _ => joinSep '.' atoms

/-- `IdToPathExpr.to_path` for the default branch template `~<id>[.<id>]`
with `noid = ""`: empty renders as "", otherwise "~" then dot-joined atoms. -/
def branchToPath (atoms : List (List Char)) : List Char :=
  match atoms with
  | [] => []
  | _ => '~' :: joinSep '.' atoms

/-- `TargetToPathExpr._to_path` for the default structure template
`<index>/<name><branch>` (`targetpath.py` lines 358-376, with `name` and
`default_branch` unset): substitute the rendered index, name and branch. -/
def renderPath (noid : List Char) (t : PTarget) : List Char :=
  idToPath noid t.index ++ '/' :: (t.name ++ branchToPath t.branch)

/-- The first match of the generative expression `\.([idchar]+)` in a string
(`re.search` inside the while-loop of `IdToPathExpr.from_path`, `targetpath.py`
lines 579-593): scan for the first "." followed by at least one id character;
return the greedy id-character run and the remainder after it.  Characters
skipped before the match are discarded, exactly as `remain[gen_match.end():]`
discards them. -/
def findDotRun : List Char → Option (List Char × List Char)
  | [] => none
  | c :: cs =>
    if c == '.' then
      let run := cs.takeWhile isIdChar
      if run.isEmpty then findDotRun cs else some (run, cs.drop run.length)
    else findDotRun cs

/-- The `while remain:` loop of `IdToPathExpr.from_path` (`targetpath.py`
lines 584-593), with fuel for structural recursion (each iteration consumes
at least two characters, so `remain.length` steps always suffice). -/
def idchunksF : Nat → List Char → Option (List (List Char))
  | _, [] => some []
  | 0, _ :: _ => none
  | fuel + 1, rem =>
    match findDotRun rem with
    | none => none
    | some (run, rest) => (idchunksF fuel rest).map (fun ms => run :: ms)

/-- `IdToPathExpr.from_path` for the index template `<id>[.<id>]`
(`targetpath.py` lines 549-600): `noid` parses as the empty identifier
(Python returns `None`); otherwise the greedy head run `^([idchar]+)` is
taken (the `$`-anchored empty tail is a no-op) and the generative loop
consumes the remainder. -/
def idFromPath (noid : List Char) (s : List Char) : Option (List (List Char)) :=
  if s == noid then some []
  else
    let run := s.takeWhile isIdChar
    if run.isEmpty then none
    else
      match idchunksF (s.drop run.length).length (s.drop run.length) with
      | none => none
      | some mids => some (run :: mids)

/-- `IdToPathExpr.from_path` for the branch template `~<id>[.<id>]` with
`noid = ""`: the head expression is `^\~([idchar]+)`, then the same
generative loop. -/
def brFromPath (s : List Char) : Option (List (List Char)) :=
  if s.isEmpty then some []
  else
    match s with
    | '~' :: rest =>
      let run := rest.takeWhile isIdChar
      if run.isEmpty then none
      else
        match idchunksF (rest.drop run.length).length (rest.drop run.length) with
        | none => none
        | some mids => some (run :: mids)
    | _ => none

/-- The name-and-branch tail of the structure regex:
`(?P<name>[namechar]+?)(?P<branch>~.+?|)$` matched lazily (`targetpath.py`
lines 380-391).  At each name length the engine first tries a non-empty
branch (`~` plus at least one character up to the end), then the empty
branch (which requires being at the end), then extends the name by one
name character. -/
def goNB (nameRev : List Char) : List Char → Option (List Char × List Char)
  | [] => some (nameRev.reverse, [])
  | c :: cs =>
    if c == '~' then
      if cs.isEmpty then none else some (nameRev.reverse, c :: cs)
    else if isNameChar c then goNB (c :: nameRev) cs
    else none

/-- Entry point of the name-and-branch parse: the name needs at least one
character. -/
def parseNB : List Char → Option (List Char × List Char)
  | [] => none
  | c :: cs => if isNameChar c then goNB [c] cs else none

/-- The lazy index alternative `(?P<index>.+?|NOID)/...` of the structure
regex: try every split position in ascending order — the index takes `i ≥ 1`
arbitrary characters, the next character must be "/", and the rest must
parse as name-and-branch; on failure the index absorbs the "/" and the scan
continues. -/
def goIdx (accRev : List Char) : List Char → Option (List Char × List Char × List Char)
  | [] => none
  | c :: cs =>
    let acc2 := c :: accRev
    let attempt : Option (List Char × List Char × List Char) :=
      match cs with
      | '/' :: rest => (parseNB rest).map (fun nb => (acc2.reverse, nb.1, nb.2))
      | _ => none
    attempt <|> goIdx acc2 cs

/-- Whether `pre` is a prefix of `s` (the literal NOID alternative of the
regex). -/
def startsWith : List Char → List Char → Bool
  | [], _ => true
  | _ :: _, [] => false
  | a :: as, b :: bs => a == b && startsWith as bs

/-- The full structure regex `(?P<index>.+?|NOID)/(?P<name>...)(?P<branch>...)$`
(`targetpath.py` lines 380-391): the lazy `.+?` alternative is tried with
full backtracking before the literal `noid` alternative. -/
def parseStruct (noid : List Char) (p : List Char) :
    Option (List Char × List Char × List Char) :=
  goIdx [] p <|>
    (if startsWith (noid ++ ['/']) p then
      (parseNB (p.drop (noid.length + 1))).map (fun nb => (noid, nb.1, nb.2))
    else none)

/-- `TargetToPathExpr._from_path` for the default configuration
(`targetpath.py` lines 378-417): match the structure regex, convert the
index group (`None`, i.e. the empty identifier, when the group is empty;
otherwise via `IdToPathExpr.from_path`), the branch group likewise, and
build the `Target`, whose constructor validates the name and atoms and
deduplicates the branch.  Paths containing a newline are rejected up front:
the regex classes exclude `\n`, and a path that matches only thanks to the
`$`-before-trailing-newline rule always fails the converter's round-trip
check, so Python raises on such paths too. -/
def exprFromRaw (noid : List Char) (p : List Char) : Option PTarget :=
  if p.contains '\n' then none
  else
    match parseStruct noid p with
    | none => none
    | some (idxStr, nm, brStr) =>
      match (if idxStr.isEmpty then some [] else idFromPath noid idxStr) with
      | none => none
      | some index =>
        match (if brStr.isEmpty then some [] else brFromPath brStr) with
        | none => none
        | some branchAtoms =>
          if validName nm && index.all validAtom && branchAtoms.all validAtom then
            some ⟨nm, index, pyDedup branchAtoms⟩
          else none

/-- `TargetToPathExpr._to_path` never fails for the default configuration
(no pinned name, no default branch, no value validators), so it is total. -/
def exprToRaw (noid : List Char) (t : PTarget) : Option (List Char) :=
  some (renderPath noid t)

/-- A raw converter: the `_to_path` / `_from_path` pair that a
`TargetConverter` subclass provides (`targetpath.py` lines 45-49). -/
structure RawConv (T P : Type) where
  toRaw : T → Option P
  fromRaw : P → Option T

/-- The `TargetToPathExpr` converter for the default workdir configuration,
parameterized by the `noindex` literal (defaults to "_", `targetpath.py`
lines 21-29). -/
def exprConv (noid : List Char) : RawConv PTarget (List Char) :=
  ⟨exprToRaw noid, exprFromRaw noid⟩

/-- Split a path on "/" (Python `path.split('/')`). -/
def splitSlash : List Char → List (List Char)
  | [] => [[]]
  | c :: cs =>
    if c == '/' then [] :: splitSlash cs
    else
      match splitSlash cs with
      | g :: gs => (c :: g) :: gs
      | [] => [[c]]

/-- The `initial_slashes` count of CPython `posixpath.normpath`: 1 for a
leading "/", 2 for exactly two leading slashes. -/
def initialSlashes (p : List Char) : Nat :=
  if p.take 1 = ['/'] then
    if p.take 2 = ['/', '/'] ∧ ¬ (p.take 3 = ['/', '/', '/']) then 2 else 1
  else 0

/-- One step of the component loop of CPython `posixpath.normpath`: skip
empty and "." components, append any component other than ".." (and ".."
itself when at the start of a relative path or after a kept ".."),
otherwise pop the previous component. -/
def normStep (ini : Nat) (acc : List (List Char)) (comp : List Char) :
    List (List Char) :=
  if comp = [] ∨ comp = ['.'] then acc
  else if ¬ (comp = ['.', '.']) ∨ (ini = 0 ∧ acc = []) ∨
      (acc ≠ [] ∧ acc.getLast? = some ['.', '.']) then acc ++ [comp]
  else if acc ≠ [] then acc.dropLast
  else acc

/-- The processed component list of `posixpath.normpath`. -/
def normComps (p : List Char) : List (List Char) :=
  (splitSlash p).foldl (normStep (initialSlashes p)) []

/-- Model of POSIX `os.path.normpath` (CPython `posixpath.normpath`),
applied by `TargetConverter.to_path` to the rendered path (`targetpath.py`
line 63): collapse empty and "." components, resolve "..", preserve one or
exactly two leading slashes; the empty result becomes ".". -/
def normpath (p : List Char) : List Char :=
  if p.isEmpty then ['.']
  else if (List.replicate (initialSlashes p) '/' ++
      joinSep '/' (normComps p)).isEmpty then ['.']
  else List.replicate (initialSlashes p) '/' ++ joinSep '/' (normComps p)

/-- The root part of `PurePosixPath.parts`: "//" for exactly two leading
slashes, "/" for one or three-plus, nothing for a relative path. -/
def pathlibRoot (p : List Char) : List (List Char) :=
  if p.take 2 = ['/', '/'] ∧ ¬ (p.take 3 = ['/', '/', '/']) then [['/', '/']]
  else if p.take 1 = ['/'] then [['/']]
  else []

/-- Model of the path normalisation done by `TargetConverter.from_path`
(`targetpath.py` lines 68-71): `"/".join(pathlib.Path(path).parts)`, then
"." becomes "".  `PurePosixPath.parts` drops empty and "." components,
keeps "..", and keeps the root. -/
def pathlibNormalize (p : List Char) : List Char :=
  if joinSep '/' (pathlibRoot p ++
      (splitSlash p).filter (fun c => ¬ (c = [] ∨ c = ['.']))) = ['.'] then []
  else joinSep '/' (pathlibRoot p ++
      (splitSlash p).filter (fun c => ¬ (c = [] ∨ c = ['.'])))

/-- Model of `TargetConverter.to_path` with `check=True` (`targetpath.py`
lines 51-63): render the target, check that parsing the rendered path gives
the same target back (else `ValueError`), and return the normalised path. -/
def TargetConverter.to_path [DecidableEq T] (np : P → P) (C : RawConv T P)
    (t : T) : Option P :=
  match C.toRaw t with
  | none => none
  | some path =>
    match C.fromRaw path with
    | none => none
    | some t2 => if t2 = t then some (np path) else none

/-- Model of `TargetConverter.from_path` with `check=True` (`targetpath.py`
lines 65-82): normalise the path, parse it, check that rendering the parsed
target gives the normalised path back (else `ValueError`). -/
def TargetConverter.from_path [DecidableEq P] (plb : P → P) (C : RawConv T P)
    (p : P) : Option T :=
  let p2 := plb p
  match C.fromRaw p2 with
  | none => none
  | some t =>
    match C.toRaw t with
    | none => none
    | some p3 => if p3 = p2 then some t else none

/-- Modelled from the spec: the "normalized form" of a path in the
round-trip law of §8 — the path as `from_path` normalises it and `to_path`
then returns it: `pathlib` normalisation followed by `os.path.normpath`. -/
def normalizedForm (p : List Char) : List Char :=
  normpath (pathlibNormalize p)

-- normalisation facts for rendered default-configuration paths

lemma bandElim {a b : Bool} (h : (a && b) = true) : a = true ∧ b = true := by
  constructor
  · exact (Bool.and_elim_left h)
  · exact (Bool.and_elim_right h)

lemma isIdChar_spec (c : Char) (h : isIdChar c = true) : c ≠ '/' ∧ c ≠ '.' := by
  constructor <;> intro hc <;> subst hc <;> exact absurd h (by decide)

lemma isNameChar_spec (c : Char) (h : isNameChar c = true) :
    c ≠ '/' ∧ c ≠ '.' := by
  constructor <;> intro hc <;> subst hc <;> exact absurd h (by decide)

lemma mem_joinSep (sep : Char) (gs : List (List Char)) (c : Char)
    (h : c ∈ joinSep sep gs) : c = sep ∨ ∃ g ∈ gs, c ∈ g := by
  cases gs with
  | nil => exact absurd h (List.not_mem_nil c)
  | cons g rest =>
    rw [joinSep] at h
    rcases List.mem_append.mp h with h1 | h2
    · exact Or.inr ⟨g, List.mem_cons_self _ _, h1⟩
    · rcases List.mem_flatten.mp h2 with ⟨l, hl, hcl⟩
      rcases List.mem_map.mp hl with ⟨g2, hg2, rfl⟩
      rcases List.mem_cons.mp hcl with rfl | hcg
      · exact Or.inl rfl
      · exact Or.inr ⟨g2, List.mem_cons_of_mem _ hg2, hcg⟩

lemma idToPath_no_slash (atoms : List (List Char)) (hv : atoms.all validAtom = true) :
    ∀ c ∈ idToPath ['_'] atoms, c ≠ '/' := by
  intro c hc
  cases atoms with
  | nil =>
    have hc2 : c ∈ ['_'] := hc
    rw [List.mem_singleton.mp hc2]
    decide
  | cons a rest =>
    have hc2 : c ∈ joinSep '.' (a :: rest) := hc
    rcases mem_joinSep '.' (a :: rest) c hc2 with rfl | ⟨g, hg, hcg⟩
    · decide
    · have hva := List.all_eq_true.mp hv g hg
      have hch := List.all_eq_true.mp (bandElim hva).2 c hcg
      exact (isIdChar_spec c hch).1

lemma nameBranch_no_slash (t : PTarget) (hv : validTarget t = true) :
    ∀ c ∈ t.name ++ branchToPath t.branch, c ≠ '/' := by
  rcases bandElim hv with ⟨hv1, hvb⟩
  rcases bandElim hv1 with ⟨hvn, _⟩
  intro c hc
  rcases List.mem_append.mp hc with h | h
  · have hch := List.all_eq_true.mp (bandElim hvn).2 c h
    exact (isNameChar_spec c hch).1
  · cases hb : t.branch with
    | nil => rw [hb] at h; exact absurd h (List.not_mem_nil c)
    | cons b rest =>
      rw [hb] at h
      have h2 : c ∈ '~' :: joinSep '.' (b :: rest) := h
      rcases List.mem_cons.mp h2 with rfl | h3
      · decide
      · rcases mem_joinSep '.' (b :: rest) c h3 with rfl | ⟨g, hg, hcg⟩
        · decide
        · have hva := List.all_eq_true.mp hvb g (hb ▸ hg)
          have hch := List.all_eq_true.mp (bandElim hva).2 c hcg
          exact (isIdChar_spec c hch).1

lemma idToPath_head (atoms : List (List Char)) (hv : atoms.all validAtom = true) :
    ∃ c cs, idToPath ['_'] atoms = c :: cs ∧ c ≠ '/' ∧ c ≠ '.' := by
  cases atoms with
  | nil => exact ⟨'_', [], rfl, by decide, by decide⟩
  | cons a rest =>
    have hva := List.all_eq_true.mp hv a (List.mem_cons_self _ _)
    rcases bandElim hva with ⟨hne, hch⟩
    cases a with
    | nil => exact absurd hne (by decide)
    | cons c cs =>
      have hc := List.all_eq_true.mp hch c (List.mem_cons_self _ _)
      exact ⟨c, cs ++ ((rest.map (fun x => '.' :: x)).flatten), rfl,
        (isIdChar_spec c hc).1, (isIdChar_spec c hc).2⟩

lemma nameBranch_head (t : PTarget) (hv : validTarget t = true) :
    ∃ c cs, t.name ++ branchToPath t.branch = c :: cs ∧ c ≠ '.' := by
  rcases bandElim hv with ⟨hv1, _⟩
  rcases bandElim hv1 with ⟨hvn, _⟩
  rcases bandElim hvn with ⟨hne, hch⟩
  cases hn : t.name with
  | nil => rw [hn] at hne; exact absurd hne (by decide)
  | cons c cs =>
    have hc := List.all_eq_true.mp hch c (by rw [hn]; exact List.mem_cons_self _ _)
    exact ⟨c, cs ++ branchToPath t.branch, rfl, (isNameChar_spec c hc).2⟩

lemma splitSlash_no_slash (l : List Char) (h : ∀ c ∈ l, c ≠ '/') :
    splitSlash l = [l] := by
  induction l with
  | nil => rfl
  | cons c cs ih =>
    have ih2 := ih (fun x hx => h x (List.mem_cons_of_mem _ hx))
    rw [splitSlash, if_neg (by simp [h c (List.mem_cons_self _ _)]), ih2]

lemma splitSlash_append (I R : List Char) (h : ∀ c ∈ I, c ≠ '/') :
    splitSlash (I ++ '/' :: R) = I :: splitSlash R := by
  induction I with
  | nil =>
    rw [List.nil_append, splitSlash, if_pos (by simp)]
  | cons c cs ih =>
    rw [List.cons_append, splitSlash,
      if_neg (by simp [h c (List.mem_cons_self _ _)]),
      ih (fun x hx => h x (List.mem_cons_of_mem _ hx))]

lemma norm_fixed (I R : List Char)
    (hI : ∀ c ∈ I, c ≠ '/') (hR : ∀ c ∈ R, c ≠ '/')
    (hIh : ∃ c cs, I = c :: cs ∧ c ≠ '/' ∧ c ≠ '.')
    (hRh : ∃ c cs, R = c :: cs ∧ c ≠ '.') :
    normpath (I ++ '/' :: R) = I ++ '/' :: R ∧
    pathlibNormalize (I ++ '/' :: R) = I ++ '/' :: R := by
  obtain ⟨ci, csi, hIe, hci1, hci2⟩ := hIh
  obtain ⟨cr, csr, hRe, hcr⟩ := hRh
  have hInn : ¬ (I = []) := by rw [hIe]; exact List.cons_ne_nil _ _
  have hInd : ¬ (I = ['.']) := by
    rw [hIe]; intro h; injection h with h1 _; exact hci2 h1
  have hIdd : ¬ (I = ['.', '.']) := by
    rw [hIe]; intro h; injection h with h1 _; exact hci2 h1
  have hRnn : ¬ (R = []) := by rw [hRe]; exact List.cons_ne_nil _ _
  have hRnd : ¬ (R = ['.']) := by
    rw [hRe]; intro h; injection h with h1 _; exact hcr h1
  have hRdd : ¬ (R = ['.', '.']) := by
    rw [hRe]; intro h; injection h with h1 _; exact hcr h1
  have hsplit : splitSlash (I ++ '/' :: R) = [I, R] := by
    rw [splitSlash_append I R hI, splitSlash_no_slash R hR]
  have hpe : ¬ ((I ++ '/' :: R).isEmpty = true) := by
    intro h
    rw [hIe] at h
    simp at h
  have ht1 : (I ++ '/' :: R).take 1 = [ci] := by rw [hIe]; rfl
  have hslash : ¬ ((I ++ '/' :: R).take 1 = ['/']) := by
    rw [ht1]; intro h; injection h with h1; exact hci1 h1
  have ht2 : ¬ ((I ++ '/' :: R).take 2 = ['/', '/'] ∧
      ¬ ((I ++ '/' :: R).take 3 = ['/', '/', '/'])) := by
    intro h
    have h2 := h.1
    rw [hIe] at h2
    rw [show ((ci :: csi) ++ '/' :: R) = ci :: (csi ++ '/' :: R) from rfl,
      List.take_succ_cons] at h2
    injection h2 with h1 _
    exact hci1 h1
  have hini : initialSlashes (I ++ '/' :: R) = 0 := by
    rw [initialSlashes, if_neg hslash]
  have hne2 : ¬ ((I ++ '/' :: R) = ['.']) := by
    rw [hIe]; intro h; injection h with h1 _; exact hci2 h1
  constructor
  · have hstep1 : normStep 0 [] I = [I] := by
      rw [normStep, if_neg (by rintro (h | h); exacts [hInn h, hInd h]),
        if_pos (Or.inl hIdd)]
      rfl
    have hstep2 : normStep 0 [I] R = [I, R] := by
      rw [normStep, if_neg (by rintro (h | h); exacts [hRnn h, hRnd h]),
        if_pos (Or.inl hRdd)]
      rfl
    have hfold : normComps (I ++ '/' :: R) = [I, R] := by
      rw [normComps, hsplit, hini, List.foldl_cons, hstep1, List.foldl_cons,
        hstep2, List.foldl_nil]
    have hjoin : joinSep '/' [I, R] = I ++ '/' :: R := by
      rw [joinSep]
      simp
    rw [normpath, if_neg hpe, hfold, hjoin, hini, List.replicate_zero,
      List.nil_append, if_neg hpe]
  · have hfilt : (splitSlash (I ++ '/' :: R)).filter
        (fun c => ¬ (c = [] ∨ c = ['.'])) = [I, R] := by
      rw [hsplit, List.filter_cons, List.filter_cons, List.filter_nil,
        if_pos (by simp [hInn, hInd]), if_pos (by simp [hRnn, hRnd])]
    have hroot : pathlibRoot (I ++ '/' :: R) = [] := by
      rw [pathlibRoot, if_neg ht2, if_neg hslash]
    have hjoin : joinSep '/' [I, R] = I ++ '/' :: R := by
      rw [joinSep]
      simp
    rw [pathlibNormalize, hfilt, hroot, List.nil_append, hjoin, if_neg hne2]

-- C4

/-- Counterexample to claim C4 as stated: the expression converter with
`noindex="."` accepts the target `Target("a")` — `to_path` renders "./a",
its internal check parses "./a" back to the same target, and
`os.path.normpath` collapses the result to "a" — but `from_path("a")` fails
(the structure regex requires a "/"), so
`C.from_path(C.to_path(t)) ≠ t` for this converter and accepted target. -/
theorem path_roundtrip_cex :
    validTarget ⟨['a'], [], []⟩ = true ∧
    TargetConverter.to_path normpath (exprConv ['.']) ⟨['a'], [], []⟩ = some ['a'] ∧
    TargetConverter.from_path pathlibNormalize (exprConv ['.']) ['a'] = none := by
  refine ⟨by decide, by decide, by decide⟩

/-- Claim C4 (amended): the round-trip law restricted to converters whose
rendered paths are fixed by path normalisation — in particular the default
`<index>/<name><branch>` configuration with `noindex = "_"`, whose rendered
paths contain no empty, "." or ".." components.  First part: for every
valid target accepted by the default converter,
`from_path (to_path t) = t`.  Second part (any converter, any raw pair):
for every path that `from_path` parses successfully,
`to_path (from_path p)` is exactly the normalised form of `p` — this
direction follows from the converter's built-in round-trip checks alone. -/
theorem path_roundtrip_spec :
    (∀ (t : PTarget) (p : List Char), validTarget t = true →
      TargetConverter.to_path normpath (exprConv ['_']) t = some p →
      TargetConverter.from_path pathlibNormalize (exprConv ['_']) p = some t) ∧
    (∀ (T : Type) [DecidableEq T] (C : RawConv T (List Char))
        (p : List Char) (t : T),
      TargetConverter.from_path pathlibNormalize C p = some t →
      TargetConverter.to_path normpath C t = some (normalizedForm p)) := by
  constructor
  · intro t p hv hacc
    rcases bandElim hv with ⟨hv1, hvb⟩
    rcases bandElim hv1 with ⟨hvn, hvi⟩
    have hnorm := norm_fixed (idToPath ['_'] t.index) (t.name ++ branchToPath t.branch)
      (idToPath_no_slash t.index hvi) (nameBranch_no_slash t hv)
      (idToPath_head t.index hvi) (nameBranch_head t hv)
    have hnp : normpath (renderPath ['_'] t) = renderPath ['_'] t := hnorm.1
    have hplb : pathlibNormalize (renderPath ['_'] t) = renderPath ['_'] t := hnorm.2
    simp only [TargetConverter.to_path, exprConv, exprToRaw] at hacc
    cases hfr : exprFromRaw ['_'] (renderPath ['_'] t) with
    | none =>
      simp only [hfr] at hacc
      exact Option.noConfusion hacc
    | some t2 =>
      simp only [hfr] at hacc
      by_cases ht2 : t2 = t
      · rw [if_pos ht2] at hacc
        have hp : p = normpath (renderPath ['_'] t) := (Option.some.inj hacc).symm
        subst hp
        subst ht2
        rw [hnp]
        rw [TargetConverter.from_path]
        simp only [exprConv, exprToRaw, hplb, hfr]
        simp
      · rw [if_neg ht2] at hacc
        exact absurd hacc (by simp)
  · intro T instT C p t h
    simp only [TargetConverter.from_path] at h
    cases hfr : C.fromRaw (pathlibNormalize p) with
    | none =>
      simp only [hfr] at h
      exact Option.noConfusion h
    | some t1 =>
      simp only [hfr] at h
      cases htr : C.toRaw t1 with
      | none =>
        simp only [htr] at h
        exact Option.noConfusion h
      | some p3 =>
        simp only [htr] at h
        by_cases hpp : p3 = pathlibNormalize p
        · rw [if_pos hpp] at h
          have ht1 : t1 = t := Option.some.inj h
          subst ht1
          rw [TargetConverter.to_path]
          simp only [htr, hpp, hfr, normalizedForm]
          simp
        · rw [if_neg hpp] at h
          exact absurd h (by simp)

/-- Witness for `path_roundtrip_spec`: the default converter round-trips the
target `Target("b", index=("x","y"), branch=("u",))` through the path
"x.y/b~u". -/
theorem path_roundtrip_witness :
    TargetConverter.from_path pathlibNormalize (exprConv ['_'])
        ['x', '.', 'y', '/', 'b', '~', 'u'] =
      some ⟨['b'], [['x'], ['y']], [['u']]⟩ :=
  path_roundtrip_spec.1 ⟨['b'], [['x'], ['y']], [['u']]⟩
    ['x', '.', 'y', '/', 'b', '~', 'u'] (by decide) (by decide)
